import Mathlib

/-!
Verification of the `life` application-lifecycle orchestrator.

The Go source is embedded shallowly:
* `pkg` records become `Pkg`; the opaque start/stop closures are modelled by
  their observable behaviour (`CbBeh`): absent (`nil`), returning normally,
  or panicking with a message.
* The global mutable state (`state`, `pkgs`, `hooks`, the `shutdown` channel)
  becomes the explicit record `LifeState`; closing the channel becomes the
  boolean `shutdownClosed`.
* `Start` / `Shutdown` become functions from `LifeState` to a trace of
  observable events (`Ev`), a successor state and an `Outcome`
  (normal return, panic propagated to the caller, or whole-process crash —
  the latter happens when a hook panics on the hook-runner goroutine, since
  an unrecovered panic in a goroutine terminates the Go program without
  running the deferred handlers of other goroutines).
* The external `github.com/stevenle/topsort` library is embedded by `visit` /
  `visitList` (its depth-first `Graph.visit`), with an explicit fuel argument
  for termination; `sortByDependency` calls it exactly as the source does.
-/

namespace Life

/-- Observable behaviour of a stored Go callback: `nil`, returns normally,
or panics with a message. -/
inductive CbBeh
  | absent
  | ok
  | panics (msg : String)
deriving DecidableEq, Repr

/-- The `pkg` struct of the source: name, start/stop callbacks, dependencies. -/
structure Pkg where
  name : String
  onStart : CbBeh
  onShutdown : CbBeh
  depends : List String
deriving DecidableEq, Repr

/-- The `hookType` enumeration of hook.go. -/
inductive hookType
  | BeforeStarting
  | BeforeRunning
  | BeforeShutingdown
  | OnAbort
deriving DecidableEq, Repr

/-- The `hook` struct of hook.go; `panicsB` models whether the stored
callback panics when invoked. -/
structure Hook where
  name : String
  order : Int
  typ : hookType
  panicsB : Bool
deriving DecidableEq, Repr

/-- The `StateT` lifecycle phase enumeration. -/
inductive StateT
  | Initing
  | Starting
  | Running
  | Shutingdown
  | Halt
deriving DecidableEq, Repr

/-- The package-level mutable state of the source: current phase, the
registered packages, the registered hooks, and whether the `shutdown`
channel has been closed. -/
structure LifeState where
  phase : StateT
  pkgs : List Pkg
  hooks : List Hook
  shutdownClosed : Bool
deriving DecidableEq, Repr

/-- Observable events: callback invocations, hook invocations,
`errors.Handle`, `hal.Exit` with a code, and a `log.Fatalf` call. -/
inductive Ev
  | startCb (n : String)
  | stopCb (n : String)
  | hookRun (t : hookType) (n : String)
  | errHandled
  | exitCall (code : Nat)
  | fatalLog
deriving DecidableEq, Repr

/-- How a call to `Start`/`Shutdown` ends: normal return, a panic propagated
to the caller, or termination of the whole process (an unrecovered panic on
another goroutine, or `log.Fatalf`). -/
inductive Outcome
  | normal
  | panicked (msg : String)
  | crashed
deriving DecidableEq, Repr

/-! ## Dependency resolver (`sortByDependency` and the topsort library) -/

/-- Names of all registered packages, in registration order. -/
def names (pkgs : List Pkg) : List String :=
  pkgs.map Pkg.name

/-- Whether `n` names a registered package (the `pkgMap` membership test). -/
def registered (pkgs : List Pkg) (n : String) : Bool :=
  (names pkgs).contains n

/-- The outgoing edges of node `n` in the graph built by `sortByDependency`:
the registered entries of the package's `depends` list (an edge to a missing
name is skipped with a warning, per the `continue` in the source). -/
def adj (pkgs : List Pkg) (n : String) : List String :=
  match pkgs.find? (fun p => p.name == n) with
  | some p => p.depends.filter (fun d => registered pkgs d)
  | none => []

/-- The cycle diagnostic produced by the topsort library's `visit`:
the part of the current path from the first occurrence of `n`, plus `n`. -/
def cycleMsg (visited : List String) (n : String) : String :=
  "Cycle error: " ++ String.intercalate " -> " (visited.drop (visited.indexOf n) ++ [n])

mutual

/-- `Graph.visit` of the topsort library: depth-first traversal keeping the
current path in `visited` and the output order in `results`; a node already
on the path is a cycle. The recursion of the Go original terminates because
the path is duplicate-free and drawn from the finite node set; here `fuel`
decreases on every recursive step to make that structural, and the callers
pass enough fuel that it is never exhausted. -/
def visit (adjF : String → List String) : Nat → String → List String → List String →
    Except String (List String)
  | 0, _, _, _ => Except.error "fuel exhausted"
  | fuel + 1, n, visited, results =>
    if visited.contains n then
      Except.error (cycleMsg visited n)
    else
      match visitList adjF fuel (adjF n) (visited ++ [n]) results with
      | Except.error e => Except.error e
      | Except.ok r => Except.ok (if r.contains n then r else r ++ [n])
termination_by structural fuel _ _ _ => fuel

/-- Visiting each edge target in turn (the `for _, edge := range n.edges()`
loop of the library). -/
def visitList (adjF : String → List String) : Nat → List String → List String → List String →
    Except String (List String)
  | _, [], _, results => Except.ok results
  | 0, _ :: _, _, _ => Except.error "fuel exhausted"
  | fuel + 1, e :: es, visited, results =>
    match visit adjF fuel e visited results with
    | Except.error err => Except.error err
    | Except.ok r => visitList adjF fuel es visited r
termination_by structural fuel _ _ _ => fuel
end

/-- The largest number of declared dependencies of any registered package. -/
def maxDepends (pkgs : List Pkg) : Nat :=
  (pkgs.map (fun p => p.depends.length)).foldr Nat.max 0

/-- Fuel amply sufficient for `visit` on the package graph (proved below:
with this much fuel the traversal never exhausts it). -/
def topSortFuel (pkgs : List Pkg) : Nat :=
  (pkgs.length + 1) * (maxDepends pkgs + 2)

/-- `Graph.TopSort` of the library, wrapped with the `[life]` prefix the
source adds when it panics on the returned error. -/
def topSort (pkgs : List Pkg) (n : String) : Except String (List String) :=
  match visit (adj pkgs) (topSortFuel pkgs) n [] [] with
  | Except.error e => Except.error ("[life] " ++ e)
  | Except.ok r => Except.ok r

/-- `noIncoming` of the source: no registered package depends on `p`. -/
def noIncoming (pkgs : List Pkg) (p : Pkg) : Bool :=
  pkgs.all (fun v => !(v.depends.contains p.name))

/-- Merging one `TopSort` result into the accumulated order, skipping names
already placed (the `added` map of `doSort`). -/
def mergeDedup (acc : List String) (l : List String) : List String :=
  match l with
  | [] => acc
  | x :: xs => if acc.contains x then mergeDedup acc xs else mergeDedup (acc ++ [x]) xs

/-- The loop body of `doSort`: for each package without incoming edges,
in registration order, topologically sort its dependency closure and merge. -/
def doSortAux (pkgs : List Pkg) : List Pkg → List String → Except String (List String)
  | [], acc => Except.ok acc
  | p :: rest, acc =>
    if noIncoming pkgs p then
      match topSort pkgs p.name with
      | Except.error e => Except.error e
      | Except.ok deps => doSortAux pkgs rest (mergeDedup acc deps)
    else
      doSortAux pkgs rest acc

/-- `doSort` of the source. -/
def doSort (pkgs : List Pkg) : Except String (List String) :=
  doSortAux pkgs pkgs []

/-- The `Loop dependency detected` diagnostic: every package with a
non-empty dependency list, with its declared dependencies. -/
def loopMsg (pkgs : List Pkg) : String :=
  "[life] Loop dependency detected" ++
    String.join (pkgs.filterMap (fun p =>
      if p.depends.isEmpty then none
      else some ("\n\t" ++ p.name ++ " -> " ++ String.intercalate ", " p.depends)))

/-- `sortByDependency` of the source: run `doSort`; if the produced order
misses packages, fail with the loop diagnostic; otherwise map the names back
to packages. -/
def sortByDependency (pkgs : List Pkg) : Except String (List Pkg) :=
  match doSort pkgs with
  | Except.error e => Except.error e
  | Except.ok sortedPkgNames =>
    if sortedPkgNames.length ≠ pkgs.length then
      Except.error (loopMsg pkgs)
    else
      Except.ok (sortedPkgNames.filterMap (fun n => pkgs.find? (fun p => p.name == n)))

/-- The warning lines logged for dependencies on unregistered names. -/
def warnMsg (pname dep : String) : String :=
  "[life] Warning: \"" ++ pname ++ "\" depends on not exist package \"" ++ dep ++ "\""

/-- All missing-dependency warnings emitted while building the graph. -/
def depWarnings (pkgs : List Pkg) : List String :=
  pkgs.flatMap (fun p =>
    (p.depends.filter (fun d => !registered pkgs d)).map (fun d => warnMsg p.name d))

/-! ## Cycle detection used to state acyclicity -/

/-- Bounded reachability along the dependency edges: is there a non-empty
path from `a` to `b` of at most `fuel` edges? -/
def reachesIn (adjF : String → List String) : Nat → String → String → Bool
  | 0, _, _ => false
  | fuel + 1, a, b => (adjF a).contains b || (adjF a).any (fun c => reachesIn adjF fuel c b)

/-- The dependency graph of the registered packages has a cycle. A simple
cycle visits at most every node once, so paths of length `pkgs.length`
suffice. -/
def hasCycle (pkgs : List Pkg) : Bool :=
  (names pkgs).any (fun n => reachesIn (adj pkgs) pkgs.length n n)

/-! ## Hook registry (hook.go) -/

/-- The comparison used by `sortHook.Less`: ascending numeric `order`. -/
def hookLe (a b : Hook) : Prop :=
  a.order ≤ b.order

instance : DecidableRel hookLe := fun a b => inferInstanceAs (Decidable (a.order ≤ b.order))

instance : IsTotal Hook hookLe := ⟨fun a b => Int.le_total a.order b.order⟩

instance : IsTrans Hook hookLe := ⟨fun _ _ _ h1 h2 => le_trans h1 h2⟩

/-- The hook execution order for one event: the registered hooks of that
event, sorted ascending by `order` (`sort.Sort(sortHook(items))`; Go's
`sort.Sort` promises a permutation that is sorted with respect to `Less`
and nothing about ties, which any comparison sort realises). -/
def hooksFor (hooks : List Hook) (t : hookType) : List Hook :=
  List.insertionSort hookLe (hooks.filter (fun h => h.typ == t))

/-- Running a list of hooks in order on the hook goroutine. A panicking hook
is invoked, then brings the whole process down (an unrecovered panic on the
spawned goroutine), so the remaining hooks are skipped; the second component
records that crash. -/
def runHookList : List Hook → List Ev × Bool
  | [] => ([], false)
  | h :: rest =>
    if h.panicsB then ([Ev.hookRun h.typ h.name], true)
    else
      let (tr, c) := runHookList rest
      (Ev.hookRun h.typ h.name :: tr, c)

/-- `callHooks` of hook.go: sort the hooks of the event and invoke them in
order (the timeout only bounds how long the caller waits and is not
observable in the trace). -/
def callHooks (hooks : List Hook) (t : hookType) : List Ev × Bool :=
  runHookList (hooksFor hooks t)

/-- No hook registered for the event panics, so the hook goroutine cannot
take the process down. -/
def hooksSafe (hooks : List Hook) : Prop :=
  ∀ h ∈ hooks, h.panicsB = false

instance (hooks : List Hook) : Decidable (hooksSafe hooks) :=
  inferInstanceAs (Decidable (∀ h ∈ hooks, h.panicsB = false))

/-! ## Orchestrator (`Start`, `Shutdown`, `WaitToEnd`) -/

/-- The start loop of `Start`: invoke each package's start callback in
order, counting how many loop iterations completed (`startedPkgs = i + 1`
runs only after the callback returns, so a panicking package is not
counted). -/
def runStartLoop : List Pkg → List Ev × Nat × Option String
  | [] => ([], 0, none)
  | p :: rest =>
    match p.onStart with
    | CbBeh.panics m => ([Ev.startCb p.name], 0, some m)
    | CbBeh.ok =>
      let (tr, n, e) := runStartLoop rest
      (Ev.startCb p.name :: tr, n + 1, e)
    | CbBeh.absent =>
      let (tr, n, e) := runStartLoop rest
      (tr, n + 1, e)

/-- The body of `doShutdownPackages` on an already-reversed list: invoke
each non-nil stop callback; a panic aborts the remaining sequence. -/
def runStopLoop : List Pkg → List Ev × Option String
  | [] => ([], none)
  | p :: rest =>
    match p.onShutdown with
    | CbBeh.panics m => ([Ev.stopCb p.name], some m)
    | CbBeh.ok =>
      let (tr, e) := runStopLoop rest
      (Ev.stopCb p.name :: tr, e)
    | CbBeh.absent => runStopLoop rest

/-- `doShutdownPackages` of the source: stop callbacks in reverse order. -/
def doShutdownPackages (l : List Pkg) : List Ev × Option String :=
  runStopLoop l.reverse

/-- Printing a phase the way the `stringer`-generated `String` method does. -/
def phaseStr : StateT → String
  | StateT.Initing => "Initing"
  | StateT.Starting => "Starting"
  | StateT.Running => "Running"
  | StateT.Shutingdown => "Shutingdown"
  | StateT.Halt => "Halt"

/-- The `log.Panicf` message for calling `Start` outside `Initing`. -/
def startErrMsg (st : StateT) : String :=
  "[life] Can not start in \"" ++ phaseStr st ++ "\" state"

/-- The recovery branch of `Start`'s deferred handler, entered with the
panic value `msg` and the number of already-started packages: shut the
started packages down in reverse order, hand the error to `errors.Handle`,
run the `OnAbort` hooks, request exit code 10 and re-panic. A panic raised
by a stop callback during this rollback escapes the deferred function and
replaces the original panic; a panicking abort hook crashes the process. -/
def startRecovery (s : LifeState) (started : Nat) (msg : String) :
    List Ev × LifeState × Outcome :=
  let (trStop, e) := doShutdownPackages (s.pkgs.take started)
  match e with
  | some m => (trStop, s, Outcome.panicked m)
  | none =>
    let (trA, c) := callHooks s.hooks hookType.OnAbort
    if c then (trStop ++ [Ev.errHandled] ++ trA, s, Outcome.crashed)
    else (trStop ++ [Ev.errHandled] ++ trA ++ [Ev.exitCall 10], s, Outcome.panicked msg)

/-- `Start` of the source: require `Initing`, run `BeforeStarting` hooks,
move to `Starting`, sort the packages by dependency (replacing the package
list), run each start callback, run `BeforeRunning` hooks and move to
`Running`. Any panic in the body is recovered by the deferred handler,
which enters `startRecovery`. -/
def Start (s : LifeState) : List Ev × LifeState × Outcome :=
  if s.phase ≠ StateT.Initing then
    startRecovery s 0 (startErrMsg s.phase)
  else
    let (trB, cB) := callHooks s.hooks hookType.BeforeStarting
    if cB then (trB, s, Outcome.crashed)
    else
      let s1 : LifeState := { s with phase := StateT.Starting }
      match sortByDependency s.pkgs with
      | Except.error e =>
        let (tr, s', o) := startRecovery s1 0 e
        (trB ++ tr, s', o)
      | Except.ok sorted =>
        let s2 : LifeState := { s1 with pkgs := sorted }
        let (trS, n, e?) := runStartLoop sorted
        match e? with
        | some m =>
          let (tr, s', o) := startRecovery s2 n m
          (trB ++ trS ++ tr, s', o)
        | none =>
          let (trR, cR) := callHooks s.hooks hookType.BeforeRunning
          if cR then (trB ++ trS ++ trR, s2, Outcome.crashed)
          else (trB ++ trS ++ trR, { s2 with phase := StateT.Running }, Outcome.normal)

/-- `Shutdown` of the source. From `Running`: move to `Shutingdown`, run the
`BeforeShutingdown` hooks, stop the packages in reverse order, close the
`shutdown` channel; the deferred handler always sets the phase to `Halt` and
turns a recovered panic into the abort sequence with exit code 11. From
`Shutingdown` the source calls `log.Fatalf` (which exits without running the
deferred handler); from any other phase it only lets the deferred handler
set `Halt` — without closing the channel. A panicking `BeforeShutingdown`
hook crashes the process from the hook goroutine, so none of the deferred
handler runs. -/
def Shutdown (s : LifeState) : List Ev × LifeState × Outcome :=
  match s.phase with
  | StateT.Running =>
    let s1 : LifeState := { s with phase := StateT.Shutingdown }
    let (trH, cH) := callHooks s.hooks hookType.BeforeShutingdown
    if cH then (trH, s1, Outcome.crashed)
    else
      let (trS, e?) := doShutdownPackages s1.pkgs
      match e? with
      | some m =>
        let s2 : LifeState := { s1 with phase := StateT.Halt }
        let (trA, cA) := callHooks s.hooks hookType.OnAbort
        if cA then (trH ++ trS ++ [Ev.errHandled] ++ trA, s2, Outcome.crashed)
        else (trH ++ trS ++ [Ev.errHandled] ++ trA ++ [Ev.exitCall 11], s2, Outcome.panicked m)
      | none =>
        (trH ++ trS, { s1 with phase := StateT.Halt, shutdownClosed := true }, Outcome.normal)
  | StateT.Shutingdown => ([Ev.fatalLog], s, Outcome.crashed)
  | _ => ([], { s with phase := StateT.Halt }, Outcome.normal)

/-- What a call to `WaitToEnd` does, as a function of the state it observes
under the lock: return immediately when the phase is `Halt`, block on the
`shutdown` channel from `Running`/`Starting`/`Initing`, and `log.Fatalf` on
the unreachable `Shutingdown` case. -/
inductive WaitB
  | immediate
  | blockOnChannel
  | fatal
deriving DecidableEq, Repr

/-- The dispatch of `WaitToEnd` on the observed phase. -/
def WaitToEnd (s : LifeState) : WaitB :=
  match s.phase with
  | StateT.Halt => WaitB.immediate
  | StateT.Running => WaitB.blockOnChannel
  | StateT.Starting => WaitB.blockOnChannel
  | StateT.Initing => WaitB.blockOnChannel
  | StateT.Shutingdown => WaitB.fatal

/-- A goroutine blocked on `<-shutdown` is released exactly when the channel
has been closed. -/
def blockedReleased (s : LifeState) : Prop :=
  s.shutdownClosed = true

instance (s : LifeState) : Decidable (blockedReleased s) :=
  inferInstanceAs (Decidable (s.shutdownClosed = true))

/-- Names of start-callback invocations in a trace, in order. -/
def startNames (tr : List Ev) : List String :=
  tr.filterMap (fun e => match e with | Ev.startCb n => some n | _ => none)

/-- Names of stop-callback invocations in a trace, in order. -/
def stopNames (tr : List Ev) : List String :=
  tr.filterMap (fun e => match e with | Ev.stopCb n => some n | _ => none)

/-- The package's start callback does not panic (it is `nil` or returns). -/
def startSafe (p : Pkg) : Bool :=
  match p.onStart with
  | CbBeh.panics _ => false
  | _ => true

/-- The package's stop callback does not panic (it is `nil` or returns). -/
def stopSafe (p : Pkg) : Bool :=
  match p.onShutdown with
  | CbBeh.panics _ => false
  | _ => true

/-- The trace produced by running the hooks of one event when none panic. -/
def hooksTr (hooks : List Hook) (t : hookType) : List Ev :=
  (hooksFor hooks t).map (fun x => Ev.hookRun x.typ x.name)

/-- The ordering property promised for the resolver's output: wherever the
list is split at an element, all of that element's graph successors occur
strictly earlier. -/
def depsBefore (adjF : String → List String) (l : List String) : Prop :=
  ∀ l1 n l2, l = l1 ++ n :: l2 → ∀ d ∈ adjF n, d ∈ l1

/-- Reflexive-transitive reachability along the dependency edges. -/
inductive Reach (adjF : String → List String) : String → String → Prop
  | refl (a : String) : Reach adjF a a
  | step {a b c : String} : b ∈ adjF a → Reach adjF b c → Reach adjF a c

/-- A package with its dependencies on unregistered names removed. -/
def scrubOne (pkgs : List Pkg) (p : Pkg) : Pkg :=
  { p with depends := p.depends.filter (fun d => registered pkgs d) }

/-- The registered packages with the dependencies on unregistered names
removed: what the graph construction actually uses. -/
def scrub (pkgs : List Pkg) : List Pkg :=
  pkgs.map (scrubOne pkgs)

/-! ## Concrete scenarios used as witnesses and counterexamples -/

/-- The `Case 2` dependency scenario of the test suite:
`a → [b]`, `b`, `c → [b]`, registered in order a, b, c. -/
def pkgsC1 : List Pkg :=
  [⟨"a", CbBeh.ok, CbBeh.ok, ["b"]⟩, ⟨"b", CbBeh.ok, CbBeh.ok, []⟩,
   ⟨"c", CbBeh.ok, CbBeh.ok, ["b"]⟩]

/-- A cycle reachable from the entry point `a`: `a → b → c → b`. -/
def pkgsC6 : List Pkg :=
  [⟨"a", CbBeh.ok, CbBeh.ok, ["b"]⟩, ⟨"b", CbBeh.ok, CbBeh.ok, ["c"]⟩,
   ⟨"c", CbBeh.ok, CbBeh.ok, ["b"]⟩]

/-- A registration with a dependency on a name that is never registered. -/
def pkgsC7 : List Pkg :=
  [⟨"a", CbBeh.ok, CbBeh.ok, ["zzz"]⟩, ⟨"b", CbBeh.ok, CbBeh.ok, ["a"]⟩]

/-- A fresh system about to `Start` with the cyclic registration. -/
def stC6 : LifeState :=
  { phase := StateT.Initing, pkgs := pkgsC6, hooks := [], shutdownClosed := false }

/-- Hooks of the `Sort by order` scenario of the test suite: orders
10 (`foo`), 9 (`bar`), 11 (`foobar`), registered in that order. -/
def hooksC8 : List Hook :=
  [⟨"foo", 10, hookType.BeforeStarting, false⟩,
   ⟨"bar", 9, hookType.BeforeStarting, false⟩,
   ⟨"foobar", 11, hookType.BeforeStarting, false⟩]

/-- A state in which `Start` is called again after the system is running. -/
def exC10 : LifeState :=
  { phase := StateT.Running, pkgs := [],
    hooks := [⟨"h", 0, hookType.OnAbort, false⟩], shutdownClosed := false }

/-- A running system with one well-behaved package, a `BeforeShutingdown`
hook that panics, and an `OnAbort` hook. -/
def exC3 : LifeState :=
  { phase := StateT.Running,
    pkgs := [⟨"p", CbBeh.absent, CbBeh.ok, []⟩],
    hooks := [⟨"h", 0, hookType.BeforeShutingdown, true⟩, ⟨"a", 0, hookType.OnAbort, false⟩],
    shutdownClosed := false }

/-- A running system whose only package panics on shutdown, with two abort
hooks (the `Abort because shutdow failed` scenario of the test suite). -/
def exC3b : LifeState :=
  { phase := StateT.Running,
    pkgs := [⟨"p", CbBeh.absent, CbBeh.panics "error", []⟩],
    hooks := [⟨"foo", 0, hookType.OnAbort, false⟩, ⟨"bar", 1, hookType.OnAbort, false⟩],
    shutdownClosed := false }

/-- A running system whose only package panics on shutdown. -/
def exC4 : LifeState :=
  { phase := StateT.Running,
    pkgs := [⟨"p", CbBeh.absent, CbBeh.panics "boom", []⟩],
    hooks := [], shutdownClosed := false }

/-- The `Abort because start failed` scenario of the test suite: a healthy
package `foo`, then a package whose start callback panics, plus two abort
hooks. -/
def exC2 : LifeState :=
  { phase := StateT.Initing,
    pkgs := [⟨"foo", CbBeh.ok, CbBeh.ok, []⟩, ⟨"panic", CbBeh.panics "foo", CbBeh.absent, []⟩],
    hooks := [⟨"foo", 0, hookType.OnAbort, false⟩, ⟨"bar", 1, hookType.OnAbort, false⟩],
    shutdownClosed := false }

/-- Two packages with both callbacks, the second depending on the first. -/
def exC5 : LifeState :=
  { phase := StateT.Initing,
    pkgs := [⟨"pkg2", CbBeh.ok, CbBeh.ok, ["pkg1"]⟩, ⟨"pkg1", CbBeh.ok, CbBeh.ok, []⟩],
    hooks := [], shutdownClosed := false }

/-- A running system with one well-behaved package. -/
def exC4b : LifeState :=
  { phase := StateT.Running,
    pkgs := [⟨"p", CbBeh.absent, CbBeh.ok, []⟩],
    hooks := [], shutdownClosed := false }

/-! ## Basic execution lemmas -/

theorem runHookList_safe (l : List Hook) (h : ∀ x ∈ l, x.panicsB = false) :
    runHookList l = (l.map (fun x => Ev.hookRun x.typ x.name), false) := by
  induction l with
  | nil => rfl
  | cons a l ih =>
    have ha : a.panicsB = false := h a (List.mem_cons_self a l)
    have hl := ih (fun x hx => h x (List.mem_cons_of_mem a hx))
    simp [runHookList, ha, hl]

theorem mem_of_mem_hooksFor {hooks : List Hook} {t : hookType} {h : Hook}
    (hm : h ∈ hooksFor hooks t) : h ∈ hooks :=
  List.mem_of_mem_filter ((List.mem_insertionSort hookLe).1 hm)

theorem callHooks_safe (hooks : List Hook) (t : hookType) (h : hooksSafe hooks) :
    callHooks hooks t = (hooksTr hooks t, false) :=
  runHookList_safe _ (fun x hx => h x (mem_of_mem_hooksFor hx))

theorem startNames_append (t1 t2 : List Ev) :
    startNames (t1 ++ t2) = startNames t1 ++ startNames t2 :=
  List.filterMap_append t1 t2 _

theorem stopNames_append (t1 t2 : List Ev) :
    stopNames (t1 ++ t2) = stopNames t1 ++ stopNames t2 :=
  List.filterMap_append t1 t2 _

theorem startNames_hooksTr (hooks : List Hook) (t : hookType) :
    startNames (hooksTr hooks t) = [] := by
  simp [startNames, hooksTr, List.filterMap_map, Function.comp]

theorem stopNames_hooksTr (hooks : List Hook) (t : hookType) :
    stopNames (hooksTr hooks t) = [] := by
  simp [stopNames, hooksTr, List.filterMap_map, Function.comp]

theorem runStartLoop_safe (l : List Pkg) (h : ∀ p ∈ l, startSafe p = true) :
    runStartLoop l =
      ((l.filter (fun p => p.onStart == CbBeh.ok)).map (fun p => Ev.startCb p.name),
       l.length, none) := by
  induction l with
  | nil => rfl
  | cons p l ih =>
    have hp : startSafe p = true := h p (List.mem_cons_self p l)
    have hl := ih (fun q hq => h q (List.mem_cons_of_mem p hq))
    cases hcb : p.onStart with
    | panics m => rw [startSafe, hcb] at hp; exact absurd hp (by simp)
    | ok => simp [runStartLoop, hcb, hl, List.filter_cons]
    | absent => simp [runStartLoop, hcb, hl, List.filter_cons]

theorem runStartLoop_split (done rest : List Pkg) (pbad : Pkg) (m : String)
    (hdone : ∀ p ∈ done, startSafe p = true) (hbad : pbad.onStart = CbBeh.panics m) :
    runStartLoop (done ++ pbad :: rest) =
      ((done.filter (fun p => p.onStart == CbBeh.ok)).map (fun p => Ev.startCb p.name)
        ++ [Ev.startCb pbad.name],
       done.length, some m) := by
  induction done with
  | nil => simp [runStartLoop, hbad]
  | cons p l ih =>
    have hp : startSafe p = true := hdone p (List.mem_cons_self p l)
    have hl := ih (fun q hq => hdone q (List.mem_cons_of_mem p hq))
    cases hcb : p.onStart with
    | panics m' => rw [startSafe, hcb] at hp; exact absurd hp (by simp)
    | ok => simp [runStartLoop, hcb, hl, List.filter_cons]
    | absent => simp [runStartLoop, hcb, hl, List.filter_cons]

theorem runStopLoop_safe (l : List Pkg) (h : ∀ p ∈ l, stopSafe p = true) :
    runStopLoop l =
      ((l.filter (fun p => p.onShutdown == CbBeh.ok)).map (fun p => Ev.stopCb p.name),
       none) := by
  induction l with
  | nil => rfl
  | cons p l ih =>
    have hp : stopSafe p = true := h p (List.mem_cons_self p l)
    have hl := ih (fun q hq => h q (List.mem_cons_of_mem p hq))
    cases hcb : p.onShutdown with
    | panics m => rw [stopSafe, hcb] at hp; exact absurd hp (by simp)
    | ok => simp [runStopLoop, hcb, hl, List.filter_cons]
    | absent => simp [runStopLoop, hcb, hl, List.filter_cons]

theorem doShutdownPackages_safe (l : List Pkg) (h : ∀ p ∈ l, stopSafe p = true) :
    doShutdownPackages l =
      (((l.filter (fun p => p.onShutdown == CbBeh.ok)).map (fun p => Ev.stopCb p.name)).reverse,
       none) := by
  rw [doShutdownPackages, runStopLoop_safe _ (fun p hp => h p (List.mem_reverse.1 hp))]
  rw [List.filter_reverse, List.map_reverse]

/-! ## Dependency resolver lemmas -/

theorem visit_extends (adjF : String → List String) :
    ∀ fuel : Nat,
      (∀ n visited results r, visit adjF fuel n visited results = Except.ok r →
        ∃ t, r = results ++ t) ∧
      (∀ es visited results r, visitList adjF fuel es visited results = Except.ok r →
        ∃ t, r = results ++ t) := by
  intro fuel
  induction fuel with
  | zero =>
    refine ⟨fun n visited results r h => ?_, fun es visited results r h => ?_⟩
    · simp [visit] at h
    · cases es with
      | nil =>
        simp [visitList] at h
        exact ⟨[], by simp [h]⟩
      | cons e es => simp [visitList] at h
  | succ fuel ih =>
    refine ⟨fun n visited results r h => ?_, fun es visited results r h => ?_⟩
    · rw [visit] at h
      by_cases hc : n ∈ visited
      · simp [hc] at h
      · simp [hc] at h
        cases hv : visitList adjF fuel (adjF n) (visited ++ [n]) results with
        | error e => rw [hv] at h; cases h
        | ok r' =>
          rw [hv] at h
          obtain ⟨t, ht⟩ := (ih.2) _ _ _ _ hv
          by_cases hm : n ∈ r'
          · simp [hm] at h
            exact ⟨t, by rw [← h, ht]⟩
          · simp [hm] at h
            exact ⟨t ++ [n], by rw [← h, ht, List.append_assoc]⟩
    · cases es with
      | nil =>
        simp [visitList] at h
        exact ⟨[], by simp [h]⟩
      | cons e es =>
        rw [visitList] at h
        cases hv : visit adjF fuel e visited results with
        | error e' => rw [hv] at h; cases h
        | ok r1 =>
          rw [hv] at h
          obtain ⟨t1, ht1⟩ := ih.1 _ _ _ _ hv
          obtain ⟨t2, ht2⟩ := ih.2 _ _ _ _ h
          exact ⟨t1 ++ t2, by rw [ht2, ht1, List.append_assoc]⟩

theorem depsBefore_append {adjF : String → List String} {l : List String} {n : String}
    (hdb : depsBefore adjF l) (hsub : ∀ d ∈ adjF n, d ∈ l) :
    depsBefore adjF (l ++ [n]) := by
  intro l1 m l2 heq d hd
  rcases List.eq_nil_or_concat l2 with h2 | ⟨l2', y, h2⟩
  · subst h2
    have : l = l1 ∧ [n] = [m] := List.append_inj' heq rfl
    obtain ⟨h3, h4⟩ := this
    cases h4
    exact h3 ▸ hsub d hd
  · subst h2
    have heq' : l ++ [n] = (l1 ++ m :: l2') ++ [y] := by
      rw [heq]; simp
    have : l = l1 ++ m :: l2' ∧ [n] = [y] := List.append_inj' heq' rfl
    exact hdb l1 m l2' this.1 d hd

theorem reachesIn_mono {adjF : String → List String} :
    ∀ {k k' : Nat} {a b : String}, k ≤ k' → reachesIn adjF k a b = true →
      reachesIn adjF k' a b = true := by
  intro k
  induction k with
  | zero => intro k' a b _ h; simp [reachesIn] at h
  | succ k ih =>
    intro k' a b hk h
    obtain ⟨k'', rfl⟩ : ∃ k'', k' = k'' + 1 :=
      ⟨k' - 1, by omega⟩
    rw [reachesIn] at h ⊢
    rcases Bool.or_eq_true_iff.1 h with h1 | h1
    · exact Bool.or_eq_true_iff.2 (Or.inl h1)
    · refine Bool.or_eq_true_iff.2 (Or.inr ?_)
      obtain ⟨c, hc, hr⟩ := List.any_eq_true.1 h1
      exact List.any_eq_true.2 ⟨c, hc, ih (by omega) hr⟩

theorem chain_to_reachesIn {adjF : String → List String} :
    ∀ (l : List String) (x y : String),
      List.Chain' (fun a b => b ∈ adjF a) (x :: l) → y ∈ l →
      reachesIn adjF l.length x y = true := by
  intro l
  induction l with
  | nil => intro x y _ hy; cases hy
  | cons z l ih =>
    intro x y hch hy
    have hxz : z ∈ adjF x := (List.chain'_cons.1 hch).1
    have hch' : List.Chain' (fun a b => b ∈ adjF a) (z :: l) := (List.chain'_cons.1 hch).2
    rw [List.length_cons, reachesIn]
    rcases List.mem_cons.1 hy with rfl | hy'
    · exact Bool.or_eq_true_iff.2 (Or.inl (List.elem_eq_true_of_mem hxz))
    · exact Bool.or_eq_true_iff.2 (Or.inr (List.any_eq_true.2 ⟨z, hxz, ih z y hch' hy'⟩))

theorem visit_ok_spec (adjF : String → List String) (N : List String)
    (hadj : ∀ a b, b ∈ adjF a → b ∈ N) :
    ∀ fuel : Nat,
      (∀ n visited results r, n ∈ N →
        visit adjF fuel n visited results = Except.ok r →
        n ∈ r ∧ (results.Nodup → r.Nodup) ∧
        (∀ x ∈ r, x ∈ results ∨ x ∈ N) ∧
        (depsBefore adjF results → depsBefore adjF r)) ∧
      (∀ es visited results r, (∀ e ∈ es, e ∈ N) →
        visitList adjF fuel es visited results = Except.ok r →
        (∀ e ∈ es, e ∈ r) ∧ (results.Nodup → r.Nodup) ∧
        (∀ x ∈ r, x ∈ results ∨ x ∈ N) ∧
        (depsBefore adjF results → depsBefore adjF r)) := by
  intro fuel
  induction fuel with
  | zero =>
    refine ⟨fun n visited results r _ h => ?_, fun es visited results r _ h => ?_⟩
    · simp [visit] at h
    · cases es with
      | nil =>
        simp [visitList] at h
        subst h
        exact ⟨fun e he => absurd he (List.not_mem_nil e), fun hd => hd,
          fun x hx => Or.inl hx, fun hdb => hdb⟩
      | cons e es => simp [visitList] at h
  | succ fuel ih =>
    refine ⟨fun n visited results r hn h => ?_, fun es visited results r hes h => ?_⟩
    · rw [visit] at h
      by_cases hc : n ∈ visited
      · simp [hc] at h
      · simp [hc] at h
        cases hv : visitList adjF fuel (adjF n) (visited ++ [n]) results with
        | error e => rw [hv] at h; cases h
        | ok r' =>
          rw [hv] at h
          obtain ⟨hmem, hnd, hsub, hdb⟩ := ih.2 (adjF n) (visited ++ [n]) results r'
            (fun e he => hadj n e he) hv
          by_cases hm : n ∈ r'
          · simp [hm] at h
            subst h
            exact ⟨hm, hnd, hsub, hdb⟩
          · simp [hm] at h
            subst h
            refine ⟨List.mem_append_right _ (List.mem_singleton_self n), ?_, ?_, ?_⟩
            · intro hres
              have hr' := hnd hres
              simp [List.nodup_append, hr', hm]
            · intro x hx
              rcases List.mem_append.1 hx with hx | hx
              · exact hsub x hx
              · rw [List.mem_singleton.1 hx]; exact Or.inr hn
            · intro hres
              exact depsBefore_append (hdb hres) (fun d hd => hmem d hd)
    · cases es with
      | nil =>
        simp [visitList] at h
        subst h
        exact ⟨fun e he => absurd he (List.not_mem_nil e), fun hd => hd,
          fun x hx => Or.inl hx, fun hdb => hdb⟩
      | cons e es =>
        rw [visitList] at h
        cases hv : visit adjF fuel e visited results with
        | error err => rw [hv] at h; cases h
        | ok r1 =>
          rw [hv] at h
          obtain ⟨hm1, hnd1, hsub1, hdb1⟩ :=
            ih.1 e visited results r1 (hes e (List.mem_cons_self e es)) hv
          obtain ⟨hm2, hnd2, hsub2, hdb2⟩ :=
            ih.2 es visited r1 r (fun e' he' => hes e' (List.mem_cons_of_mem e he')) h
          obtain ⟨t2, ht2⟩ := (visit_extends adjF fuel).2 es visited r1 r h
          refine ⟨?_, fun hres => hnd2 (hnd1 hres), ?_, fun hdb => hdb2 (hdb1 hdb)⟩
          · intro e' he'
            rcases List.mem_cons.1 he' with rfl | he''
            · rw [ht2]; exact List.mem_append_left _ hm1
            · exact hm2 e' he''
          · intro x hx
            rcases hsub2 x hx with hx1 | hx1
            · exact hsub1 x hx1
            · exact Or.inr hx1

theorem chain_cycle_absurd (adjF : String → List String) (N : List String)
    (hNoCyc : ∀ m ∈ N, reachesIn adjF N.length m m = false)
    {visited : List String} {n : String}
    (hnd : visited.Nodup) (hvs : ∀ v ∈ visited, v ∈ N)
    (hch : List.Chain' (fun a b => b ∈ adjF a) (visited ++ [n]))
    (hmem : n ∈ visited) : False := by
  obtain ⟨v1, v2, hsplit⟩ := List.append_of_mem hmem
  subst hsplit
  have hch' : List.Chain' (fun a b => b ∈ adjF a) (n :: (v2 ++ [n])) := by
    have heq : (v1 ++ n :: v2) ++ [n] = v1 ++ (n :: (v2 ++ [n])) := by simp
    rw [heq] at hch
    exact hch.right_of_append
  have hr : reachesIn adjF (v2 ++ [n]).length n n = true :=
    chain_to_reachesIn (v2 ++ [n]) n n hch'
      (List.mem_append_right _ (List.mem_singleton_self n))
  have hnd2 : (n :: v2).Nodup :=
    (List.sublist_append_right v1 (n :: v2)).nodup hnd
  have hsub2 : (n :: v2) ⊆ N := fun v hv => hvs v (List.mem_append_right v1 hv)
  have hlen : (n :: v2).length ≤ N.length :=
    (List.subperm_of_subset hnd2 hsub2).length_le
  have hfin : reachesIn adjF N.length n n = true := by
    apply reachesIn_mono _ hr
    simp at hlen ⊢
    omega
  have hnN : n ∈ N := hvs n (List.mem_append_right v1 (List.mem_cons_self n v2))
  rw [hNoCyc n hnN] at hfin
  cases hfin

theorem visit_no_error (adjF : String → List String) (N : List String) (D : Nat)
    (hadj : ∀ a b, b ∈ adjF a → b ∈ N)
    (hdeg : ∀ a ∈ N, (adjF a).length ≤ D)
    (hNoCyc : ∀ m ∈ N, reachesIn adjF N.length m m = false) :
    ∀ fuel : Nat,
      (∀ n visited results, n ∈ N → visited.Nodup → (∀ v ∈ visited, v ∈ N) →
        List.Chain' (fun a b => b ∈ adjF a) (visited ++ [n]) →
        (N.length + 1 - visited.length) * (D + 2) ≤ fuel →
        ∃ r, visit adjF fuel n visited results = Except.ok r) ∧
      (∀ es visited results, (∀ e ∈ es, e ∈ N) → visited.Nodup → (∀ v ∈ visited, v ∈ N) →
        (∀ e ∈ es, List.Chain' (fun a b => b ∈ adjF a) (visited ++ [e])) →
        es.length + (N.length + 1 - visited.length) * (D + 2) ≤ fuel →
        ∃ r, visitList adjF fuel es visited results = Except.ok r) := by
  intro fuel
  induction fuel with
  | zero =>
    refine ⟨fun n visited results hn hnd hvs hch hbound => ?_,
      fun es visited results hes hnd hvs hch hbound => ?_⟩
    · by_cases hc : n ∈ visited
      · exact absurd (chain_cycle_absurd adjF N hNoCyc hnd hvs hch hc) (fun h => h)
      · exfalso
        have hndv : (visited ++ [n]).Nodup := by
          simp [List.nodup_append, hnd, hc]
        have hsubv : (visited ++ [n]) ⊆ N := by
          intro v hv
          rcases List.mem_append.1 hv with hv | hv
          · exact hvs v hv
          · rw [List.mem_singleton.1 hv]; exact hn
        have hlen : visited.length + 1 ≤ N.length := by
          have := (List.subperm_of_subset hndv hsubv).length_le
          simpa using this
        have hpos : 0 < (N.length + 1 - visited.length) * (D + 2) :=
          Nat.mul_pos (by omega) (by omega)
        omega
    · cases es with
      | nil => exact ⟨results, by simp [visitList]⟩
      | cons e es => simp at hbound
  | succ fuel ih =>
    refine ⟨fun n visited results hn hnd hvs hch hbound => ?_,
      fun es visited results hes hnd hvs hch hbound => ?_⟩
    · by_cases hc : n ∈ visited
      · exact absurd (chain_cycle_absurd adjF N hNoCyc hnd hvs hch hc) (fun h => h)
      · have hndv : (visited ++ [n]).Nodup := by
          simp [List.nodup_append, hnd, hc]
        have hsubv : ∀ v ∈ visited ++ [n], v ∈ N := by
          intro v hv
          rcases List.mem_append.1 hv with hv | hv
          · exact hvs v hv
          · rw [List.mem_singleton.1 hv]; exact hn
        have hlen : visited.length + 1 ≤ N.length := by
          have := (List.subperm_of_subset hndv hsubv).length_le
          simpa using this
        have hchs : ∀ e ∈ adjF n, List.Chain' (fun a b => b ∈ adjF a) ((visited ++ [n]) ++ [e]) := by
          intro e he
          rw [List.chain'_append]
          refine ⟨hch, List.chain'_singleton e, ?_⟩
          intro x hx y hy
          rw [List.getLast?_concat] at hx
          cases hx
          cases hy
          exact he
        have hboundL : (adjF n).length +
            (N.length + 1 - (visited ++ [n]).length) * (D + 2) ≤ fuel := by
          have hD := hdeg n hn
          have h1 : N.length + 1 - visited.length = (N.length - visited.length) + 1 := by
            omega
          rw [h1, add_mul, one_mul] at hbound
          have h2 : N.length + 1 - (visited ++ [n]).length = N.length - visited.length := by
            simp
          rw [h2]
          omega
        obtain ⟨r', hr'⟩ := ih.2 (adjF n) (visited ++ [n]) results
          (fun e he => hadj n e he) hndv hsubv hchs hboundL
        refine ⟨if n ∈ r' then r' else r' ++ [n], ?_⟩
        rw [visit]
        simp [hc, hr']
    · cases es with
      | nil => exact ⟨results, by simp [visitList]⟩
      | cons e es =>
        have hbound1 : (N.length + 1 - visited.length) * (D + 2) ≤ fuel := by
          simp at hbound
          omega
        obtain ⟨r1, hr1⟩ := ih.1 e visited results (hes e (List.mem_cons_self e es))
          hnd hvs (hch e (List.mem_cons_self e es)) hbound1
        have hbound2 : es.length + (N.length + 1 - visited.length) * (D + 2) ≤ fuel := by
          simp at hbound
          omega
        obtain ⟨r, hr⟩ := ih.2 es visited r1
          (fun e' he' => hes e' (List.mem_cons_of_mem e he'))
          hnd hvs (fun e' he' => hch e' (List.mem_cons_of_mem e he')) hbound2
        refine ⟨r, ?_⟩
        rw [visitList, hr1]
        exact hr

theorem visit_mono (adjF : String → List String) :
    ∀ fuel : Nat,
      (∀ fuel' n visited results r, fuel ≤ fuel' →
        visit adjF fuel n visited results = Except.ok r →
        visit adjF fuel' n visited results = Except.ok r) ∧
      (∀ fuel' es visited results r, fuel ≤ fuel' →
        visitList adjF fuel es visited results = Except.ok r →
        visitList adjF fuel' es visited results = Except.ok r) := by
  intro fuel
  induction fuel with
  | zero =>
    refine ⟨fun fuel' n visited results r _ h => ?_,
      fun fuel' es visited results r hle h => ?_⟩
    · simp [visit] at h
    · cases es with
      | nil =>
        simp [visitList] at h
        subst h
        simp [visitList]
      | cons e es => simp [visitList] at h
  | succ fuel ih =>
    refine ⟨fun fuel' n visited results r hle h => ?_,
      fun fuel' es visited results r hle h => ?_⟩
    · obtain ⟨f', rfl⟩ : ∃ f', fuel' = f' + 1 := ⟨fuel' - 1, by omega⟩
      rw [visit] at h ⊢
      by_cases hc : n ∈ visited
      · simp [hc] at h
      · simp [hc] at h ⊢
        cases hv : visitList adjF fuel (adjF n) (visited ++ [n]) results with
        | error e => rw [hv] at h; simp at h
        | ok r' =>
          rw [hv] at h
          rw [ih.2 f' _ _ _ _ (by omega) hv]
          exact h
    · cases es with
      | nil =>
        simp [visitList] at h
        subst h
        simp [visitList]
      | cons e es =>
        obtain ⟨f', rfl⟩ : ∃ f', fuel' = f' + 1 := ⟨fuel' - 1, by omega⟩
        rw [visitList] at h ⊢
        cases hv : visit adjF fuel e visited results with
        | error err => rw [hv] at h; cases h
        | ok r1 =>
          rw [hv] at h
          rw [ih.1 f' _ _ _ _ (by omega) hv]
          exact ih.2 f' _ _ _ _ (by omega) h

theorem visitList_elem_call (adjF : String → List String) :
    ∀ fuel es visited results r,
      visitList adjF fuel es visited results = Except.ok r →
      ∀ e ∈ es, ∃ f' res₀ r₀ t,
        visit adjF f' e visited res₀ = Except.ok r₀ ∧ r = r₀ ++ t := by
  intro fuel
  induction fuel with
  | zero =>
    intro es visited results r h e he
    cases es with
    | nil => cases he
    | cons e0 es => simp [visitList] at h
  | succ fuel ih =>
    intro es visited results r h e he
    cases es with
    | nil => cases he
    | cons e0 es =>
      rw [visitList] at h
      cases hv : visit adjF fuel e0 visited results with
      | error err => rw [hv] at h; cases h
      | ok r1 =>
        rw [hv] at h
        rcases List.mem_cons.1 he with rfl | he'
        · obtain ⟨t2, ht2⟩ := (visit_extends adjF fuel).2 es visited r1 r h
          exact ⟨fuel, results, r1, t2, hv, ht2⟩
        · exact ih es visited r1 r h e he'

theorem visit_reach_mem (adjF : String → List String) (N : List String)
    (hadj : ∀ a b, b ∈ adjF a → b ∈ N)
    {a target : String} (hreach : Reach adjF a target) :
    a ∈ N → ∀ fuel visited results r,
      visit adjF fuel a visited results = Except.ok r → target ∈ r := by
  induction hreach with
  | refl a =>
    intro haN fuel visited results r h
    exact ((visit_ok_spec adjF N hadj fuel).1 a visited results r haN h).1
  | @step a b c hb _ ih =>
    intro haN fuel visited results r h
    cases fuel with
    | zero => simp [visit] at h
    | succ fuel =>
      rw [visit] at h
      by_cases hc : a ∈ visited
      · simp [hc] at h
      · simp [hc] at h
        cases hv : visitList adjF fuel (adjF a) (visited ++ [a]) results with
        | error e => rw [hv] at h; simp at h
        | ok r' =>
          rw [hv] at h
          obtain ⟨f', res₀, r₀, t, hv0, hpre⟩ :=
            visitList_elem_call adjF fuel (adjF a) (visited ++ [a]) results r' hv b hb
          have hcr0 : c ∈ r₀ := ih (hadj a b hb) f' (visited ++ [a]) res₀ r₀ hv0
          have hcr' : c ∈ r' := hpre ▸ List.mem_append_left t hcr0
          by_cases hm : a ∈ r'
          · simp [hm] at h
            exact h ▸ hcr'
          · simp [hm] at h
            exact h ▸ List.mem_append_left [a] hcr'

theorem contains_true_of_mem {l : List String} {x : String} (h : x ∈ l) :
    l.contains x = true := by
  simpa using h

theorem contains_false_of_not_mem {l : List String} {x : String} (h : x ∉ l) :
    l.contains x = false := by
  simpa using h

theorem mergeDedup_sub_left (l : List String) :
    ∀ acc, acc ⊆ mergeDedup acc l := by
  induction l with
  | nil => intro acc; simp [mergeDedup]
  | cons x xs ih =>
    intro acc
    rw [mergeDedup]
    by_cases hx : x ∈ acc
    · rw [if_pos (contains_true_of_mem hx)]
      exact ih acc
    · rw [if_neg (by simpa using hx)]
      intro a ha
      exact ih (acc ++ [x]) (List.mem_append_left [x] ha)

theorem mergeDedup_mem_right (l : List String) :
    ∀ acc x, x ∈ l → x ∈ mergeDedup acc l := by
  induction l with
  | nil => intro acc x hx; cases hx
  | cons y ys ih =>
    intro acc x hx
    rw [mergeDedup]
    by_cases hy : y ∈ acc
    · rw [if_pos (contains_true_of_mem hy)]
      rcases List.mem_cons.1 hx with rfl | hx'
      · exact mergeDedup_sub_left ys acc hy
      · exact ih acc x hx'
    · rw [if_neg (by simpa using hy)]
      rcases List.mem_cons.1 hx with rfl | hx'
      · exact mergeDedup_sub_left ys (acc ++ [x])
          (List.mem_append_right acc (List.mem_singleton_self x))
      · exact ih (acc ++ [y]) x hx'

theorem mergeDedup_nodup (l : List String) :
    ∀ acc, acc.Nodup → (mergeDedup acc l).Nodup := by
  induction l with
  | nil => intro acc h; simpa [mergeDedup] using h
  | cons x xs ih =>
    intro acc h
    rw [mergeDedup]
    by_cases hx : x ∈ acc
    · rw [if_pos (contains_true_of_mem hx)]
      exact ih acc h
    · rw [if_neg (by simpa using hx)]
      exact ih (acc ++ [x]) (by simp [List.nodup_append, h, hx])

theorem mergeDedup_subset (l : List String) :
    ∀ acc x, x ∈ mergeDedup acc l → x ∈ acc ∨ x ∈ l := by
  induction l with
  | nil => intro acc x hx; exact Or.inl (by simpa [mergeDedup] using hx)
  | cons y ys ih =>
    intro acc x hx
    rw [mergeDedup] at hx
    by_cases hy : y ∈ acc
    · rw [if_pos (contains_true_of_mem hy)] at hx
      rcases ih acc x hx with h | h
      · exact Or.inl h
      · exact Or.inr (List.mem_cons_of_mem y h)
    · rw [if_neg (by simpa using hy)] at hx
      rcases ih (acc ++ [y]) x hx with h | h
      · rcases List.mem_append.1 h with h1 | h1
        · exact Or.inl h1
        · exact Or.inr (List.mem_cons.2 (Or.inl (List.mem_singleton.1 h1)))
      · exact Or.inr (List.mem_cons_of_mem y h)

theorem mergeDedup_eq_filter (l : List String) :
    ∀ acc, l.Nodup →
      mergeDedup acc l = acc ++ l.filter (fun x => !acc.contains x) := by
  induction l with
  | nil => intro acc _; simp [mergeDedup]
  | cons x xs ih =>
    intro acc hnd
    rw [mergeDedup]
    by_cases hx : x ∈ acc
    · rw [if_pos (contains_true_of_mem hx)]
      rw [List.filter_cons_of_neg (by simpa using hx)]
      exact ih acc hnd.of_cons
    · have hxnotxs : x ∉ xs := (List.nodup_cons.1 hnd).1
      rw [if_neg (by simpa using hx)]
      rw [List.filter_cons_of_pos (by simpa using hx)]
      have ihx := ih (acc ++ [x]) hnd.of_cons
      have hcongr : xs.filter (fun y => !(acc ++ [x]).contains y) =
          xs.filter (fun y => !acc.contains y) := by
        apply List.filter_congr
        intro y hy
        have hyx : y ≠ x := fun h => hxnotxs (h ▸ hy)
        by_cases hya : y ∈ acc
        · rw [contains_true_of_mem hya,
            contains_true_of_mem (List.mem_append_left [x] hya)]
        · rw [contains_false_of_not_mem hya, contains_false_of_not_mem (by
            intro hcon
            rcases List.mem_append.1 hcon with hcon | hcon
            · exact hya hcon
            · exact hyx (List.mem_singleton.1 hcon))]
      rw [ihx, hcongr]
      simp

theorem nodup_split_unique {x : String} :
    ∀ {a : List String} {c b d : List String}, (a ++ x :: b).Nodup →
      a ++ x :: b = c ++ x :: d → a = c ∧ b = d := by
  intro a
  induction a with
  | nil =>
    intro c b d hnd heq
    cases c with
    | nil =>
      simp at heq
      exact ⟨rfl, heq⟩
    | cons y c' =>
      simp at heq
      obtain ⟨rfl, heq2⟩ := heq
      exfalso
      have hx : x ∈ b := heq2 ▸ List.mem_append_right c' (List.mem_cons_self x d)
      exact (List.nodup_cons.1 hnd).1 hx
  | cons z a' ih =>
    intro c b d hnd heq
    cases c with
    | nil =>
      simp at heq
      obtain ⟨hzx, heq2⟩ := heq
      exfalso
      have hx : x ∈ a' ++ x :: b := List.mem_append_right a' (List.mem_cons_self x b)
      rw [List.cons_append, hzx] at hnd
      exact (List.nodup_cons.1 hnd).1 hx
    | cons y c' =>
      simp at heq
      obtain ⟨rfl, heq2⟩ := heq
      obtain ⟨h1, h2⟩ := ih (List.nodup_cons.1 hnd).2 heq2
      exact ⟨by rw [h1], h2⟩

theorem depsBefore_append_filter (adjF : String → List String)
    {acc l : List String}
    (hacc : depsBefore adjF acc) (hl : depsBefore adjF l) (hnd : l.Nodup) :
    depsBefore adjF (acc ++ l.filter (fun x => !acc.contains x)) := by
  intro l1 m l2 heq d hd
  have hFnd : (l.filter (fun x => !acc.contains x)).Nodup := hnd.filter _
  have hsplitF : ∀ (a' : List String),
      l.filter (fun x => !acc.contains x) = a' ++ m :: l2 →
      d ∈ acc ∨ d ∈ a' := by
    intro a' hF
    have hmF : m ∈ l.filter (fun x => !acc.contains x) :=
      hF ▸ List.mem_append_right a' (List.mem_cons_self m l2)
    have hml : m ∈ l := List.mem_of_mem_filter hmF
    have hqm : (!acc.contains m) = true := (List.mem_filter.1 hmF).2
    obtain ⟨d1, d2, hld⟩ := List.append_of_mem hml
    have hFsplit : l.filter (fun x => !acc.contains x) =
        d1.filter (fun x => !acc.contains x) ++
          m :: d2.filter (fun x => !acc.contains x) := by
      rw [hld, List.filter_append, List.filter_cons, if_pos hqm]
    have huniq := nodup_split_unique (a := a') (hF ▸ hFnd) (hF.symm.trans hFsplit)
    have hdd1 : d ∈ d1 := hl d1 m d2 hld d hd
    by_cases hdacc : d ∈ acc
    · exact Or.inl hdacc
    · refine Or.inr ?_
      rw [huniq.1]
      exact List.mem_filter.2 ⟨hdd1, by simpa using hdacc⟩
  rcases List.append_eq_append_iff.1 heq with ⟨a', hl1, hF⟩ | ⟨c', hacc2, hmd⟩
  · rcases hsplitF a' hF with hda | hda
    · exact hl1 ▸ List.mem_append_left a' hda
    · exact hl1 ▸ List.mem_append_right acc hda
  · cases c' with
    | nil =>
      rw [List.append_nil] at hacc2
      rw [List.nil_append] at hmd
      rcases hsplitF [] hmd.symm with hda | hda
      · exact hacc2 ▸ hda
      · cases hda
    | cons y c'' =>
      have hmy : m = y ∧ l2 = c'' ++ l.filter (fun x => !acc.contains x) := by
        have h' := hmd
        rw [List.cons_append] at h'
        exact ⟨List.head_eq_of_cons_eq h', List.tail_eq_of_cons_eq h'⟩
      obtain ⟨rfl, -⟩ := hmy
      exact hacc l1 m c'' hacc2 d hd

theorem mergeDedup_depsBefore (adjF : String → List String)
    {acc l : List String} (hacc : depsBefore adjF acc) (hl : depsBefore adjF l)
    (hnd : l.Nodup) : depsBefore adjF (mergeDedup acc l) := by
  rw [mergeDedup_eq_filter l acc hnd]
  exact depsBefore_append_filter adjF hacc hl hnd

theorem find?_eq_self {pkgs : List Pkg} (hnd : (names pkgs).Nodup) {p : Pkg}
    (hp : p ∈ pkgs) : pkgs.find? (fun q => q.name == p.name) = some p := by
  induction pkgs with
  | nil => cases hp
  | cons q qs ih =>
    have hnd' : (names qs).Nodup ∧ q.name ∉ names qs := by
      rw [names, List.map_cons] at hnd
      exact ⟨(List.nodup_cons.1 hnd).2, (List.nodup_cons.1 hnd).1⟩
    cases hq : (q.name == p.name) with
    | true =>
      have hqe : q.name = p.name := by simpa using hq
      rcases List.mem_cons.1 hp with rfl | hp'
      · simp [List.find?, hq]
      · exfalso
        have : p.name ∈ names qs := List.mem_map_of_mem Pkg.name hp'
        exact hnd'.2 (hqe ▸ this)
    | false =>
      rcases List.mem_cons.1 hp with rfl | hp'
      · exfalso
        simp at hq
      · rw [List.find?]
        rw [hq]
        exact ih hnd'.1 hp'

theorem registered_of_mem {pkgs : List Pkg} {p : Pkg} (hp : p ∈ pkgs) :
    registered pkgs p.name = true := by
  simp [registered, names]
  exact ⟨p, hp, rfl⟩

theorem adj_eq {pkgs : List Pkg} (hnd : (names pkgs).Nodup) {p : Pkg} (hp : p ∈ pkgs) :
    adj pkgs p.name = p.depends.filter (fun d => registered pkgs d) := by
  rw [adj, find?_eq_self hnd hp]

theorem adj_mem_names (pkgs : List Pkg) : ∀ a b, b ∈ adj pkgs a → b ∈ names pkgs := by
  intro a b hb
  rw [adj] at hb
  cases hf : pkgs.find? (fun p => p.name == a) with
  | none => rw [hf] at hb; cases hb
  | some p =>
    rw [hf] at hb
    have hreg : registered pkgs b = true := (List.mem_filter.1 hb).2
    simpa [registered] using hreg

theorem maxDepends_le {p : Pkg} : ∀ {pkgs : List Pkg}, p ∈ pkgs →
    p.depends.length ≤ maxDepends pkgs := by
  intro pkgs
  induction pkgs with
  | nil => intro hp; cases hp
  | cons q qs ih =>
    intro hp
    rw [maxDepends, List.map_cons, List.foldr_cons]
    rcases List.mem_cons.1 hp with rfl | hp'
    · exact Nat.le_max_left _ _
    · exact le_trans (by simpa [maxDepends] using ih hp') (Nat.le_max_right _ _)

theorem adj_length_le (pkgs : List Pkg) :
    ∀ a ∈ names pkgs, (adj pkgs a).length ≤ maxDepends pkgs := by
  intro a _
  rw [adj]
  cases hf : pkgs.find? (fun p => p.name == a) with
  | none => simp
  | some p =>
    calc (p.depends.filter (fun d => registered pkgs d)).length
        ≤ p.depends.length := List.length_filter_le _ _
      _ ≤ maxDepends pkgs := maxDepends_le (List.mem_of_find?_eq_some hf)

theorem noCyc_of_hasCycle_false {pkgs : List Pkg} (h : hasCycle pkgs = false) :
    ∀ m ∈ names pkgs, reachesIn (adj pkgs) (names pkgs).length m m = false := by
  intro m hm
  rw [hasCycle] at h
  have hres := List.any_eq_false.1 h m hm
  rw [names, List.length_map]
  exact Bool.not_eq_true _ ▸ (by simpa using hres)

theorem depsBefore_nil (adjF : String → List String) : depsBefore adjF [] := by
  intro l1 m l2 heq
  exact absurd heq.symm (by simp)

theorem topSort_ok_spec {pkgs : List Pkg} {n : String} {deps : List String}
    (hn : n ∈ names pkgs) (h : topSort pkgs n = Except.ok deps) :
    deps.Nodup ∧ (∀ x ∈ deps, x ∈ names pkgs) ∧ depsBefore (adj pkgs) deps ∧
    (∀ target, Reach (adj pkgs) n target → target ∈ deps) := by
  rw [topSort] at h
  cases hv : visit (adj pkgs) (topSortFuel pkgs) n [] [] with
  | error e => rw [hv] at h; cases h
  | ok r =>
    rw [hv] at h
    injection h with h
    subst h
    obtain ⟨hmem, hndr, hsub, hdb⟩ :=
      (visit_ok_spec (adj pkgs) (names pkgs) (adj_mem_names pkgs) _).1 n [] [] r hn hv
    refine ⟨hndr List.nodup_nil, fun x hx => ?_, hdb (depsBefore_nil _),
      fun target hreach =>
        visit_reach_mem (adj pkgs) (names pkgs) (adj_mem_names pkgs) hreach hn _ [] [] r hv⟩
    rcases hsub x hx with h | h
    · cases h
    · exact h

theorem topSort_no_error {pkgs : List Pkg} (hnd : (names pkgs).Nodup)
    (hacyc : hasCycle pkgs = false) {p : Pkg} (hp : p ∈ pkgs) :
    ∃ deps, topSort pkgs p.name = Except.ok deps := by
  obtain ⟨r, hr⟩ := (visit_no_error (adj pkgs) (names pkgs) (maxDepends pkgs)
    (adj_mem_names pkgs) (adj_length_le pkgs) (noCyc_of_hasCycle_false hacyc)
    (topSortFuel pkgs)).1 p.name [] [] (List.mem_map_of_mem Pkg.name hp)
    List.nodup_nil (by simp) (by simp)
    (by simp [topSortFuel, names, List.length_map])
  exact ⟨r, by rw [topSort, hr]⟩

theorem doSortAux_spec {pkgs : List Pkg} :
    ∀ (rem : List Pkg) (acc out : List String), (∀ q ∈ rem, q ∈ pkgs) →
      doSortAux pkgs rem acc = Except.ok out →
      acc ⊆ out ∧
      (acc.Nodup → out.Nodup) ∧
      (∀ x ∈ out, x ∈ acc ∨ x ∈ names pkgs) ∧
      (depsBefore (adj pkgs) acc → depsBefore (adj pkgs) out) ∧
      (∀ p ∈ rem, noIncoming pkgs p = true →
        ∃ deps, topSort pkgs p.name = Except.ok deps ∧ deps ⊆ out) := by
  intro rem
  induction rem with
  | nil =>
    intro acc out _ h
    simp [doSortAux] at h
    subst h
    exact ⟨fun a ha => ha, fun hd => hd, fun x hx => Or.inl hx, fun hdb => hdb,
      fun p hp => absurd hp (List.not_mem_nil p)⟩
  | cons p rest ih =>
    intro acc out hrem h
    rw [doSortAux] at h
    by_cases hni : noIncoming pkgs p = true
    · rw [if_pos hni] at h
      cases ht : topSort pkgs p.name with
      | error e => rw [ht] at h; cases h
      | ok deps =>
        rw [ht] at h
        have hpN : p.name ∈ names pkgs :=
          List.mem_map_of_mem Pkg.name (hrem p (List.mem_cons_self p rest))
        obtain ⟨hdnd, hdsub, hddb, -⟩ := topSort_ok_spec hpN ht
        obtain ⟨hsubo, hndo, hsubseto, hdbo, hroot⟩ :=
          ih (mergeDedup acc deps) out (fun q hq => hrem q (List.mem_cons_of_mem p hq)) h
        refine ⟨fun a ha => hsubo (mergeDedup_sub_left deps acc ha), ?_, ?_, ?_, ?_⟩
        · intro hand
          exact hndo (mergeDedup_nodup deps acc hand)
        · intro x hx
          rcases hsubseto x hx with hx1 | hx1
          · rcases mergeDedup_subset deps acc x hx1 with hx2 | hx2
            · exact Or.inl hx2
            · exact Or.inr (hdsub x hx2)
          · exact Or.inr hx1
        · intro hdb
          exact hdbo (mergeDedup_depsBefore (adj pkgs) hdb hddb hdnd)
        · intro q hq hqni
          rcases List.mem_cons.1 hq with rfl | hq'
          · exact ⟨deps, ht, fun x hx => hsubo (mergeDedup_mem_right deps acc x hx)⟩
          · exact hroot q hq' hqni
    · rw [if_neg hni] at h
      obtain ⟨hsubo, hndo, hsubseto, hdbo, hroot⟩ :=
        ih acc out (fun q hq => hrem q (List.mem_cons_of_mem p hq)) h
      refine ⟨hsubo, hndo, hsubseto, hdbo, ?_⟩
      intro q hq hqni
      rcases List.mem_cons.1 hq with rfl | hq'
      · exact absurd hqni hni
      · exact hroot q hq' hqni

theorem doSortAux_no_error {pkgs : List Pkg} (hnd : (names pkgs).Nodup)
    (hacyc : hasCycle pkgs = false) :
    ∀ (rem : List Pkg) (acc : List String), (∀ q ∈ rem, q ∈ pkgs) →
      ∃ out, doSortAux pkgs rem acc = Except.ok out := by
  intro rem
  induction rem with
  | nil => intro acc _; exact ⟨acc, by simp [doSortAux]⟩
  | cons p rest ih =>
    intro acc hrem
    rw [doSortAux]
    by_cases hni : noIncoming pkgs p = true
    · rw [if_pos hni]
      obtain ⟨deps, ht⟩ := topSort_no_error hnd hacyc (hrem p (List.mem_cons_self p rest))
      rw [ht]
      exact ih (mergeDedup acc deps) (fun q hq => hrem q (List.mem_cons_of_mem p hq))
    · rw [if_neg hni]
      exact ih acc (fun q hq => hrem q (List.mem_cons_of_mem p hq))

theorem not_noIncoming_spec {pkgs : List Pkg} {p : Pkg}
    (h : ¬ noIncoming pkgs p = true) : ∃ v ∈ pkgs, p.name ∈ v.depends := by
  rw [noIncoming] at h
  simp [List.all_eq_true] at h
  exact h

theorem backchain_cycle_absurd {pkgs : List Pkg} (hacyc : hasCycle pkgs = false)
    {c : Pkg} {seen : List String} {v : Pkg}
    (hndl : (c.name :: seen).Nodup) (hsubl : ∀ x ∈ c.name :: seen, x ∈ names pkgs)
    (hch : List.Chain' (fun a b => b ∈ adj pkgs a) (c.name :: seen))
    (hv : v ∈ pkgs) (hedge : c.name ∈ adj pkgs v.name)
    (hvin : v.name ∈ c.name :: seen) : False := by
  have hnocyc := noCyc_of_hasCycle_false hacyc v.name (List.mem_map_of_mem Pkg.name hv)
  rw [names, List.length_map] at hnocyc
  have hlenpos : 1 ≤ pkgs.length :=
    List.length_pos.2 (fun hemp => by rw [hemp] at hv; cases hv)
  rcases List.mem_cons.1 hvin with hveq | hvseen
  · have h1 : reachesIn (adj pkgs) 1 v.name v.name = true := by
      rw [reachesIn]
      exact Bool.or_eq_true_iff.2 (Or.inl (List.elem_eq_true_of_mem (by rw [hveq]; exact hveq ▸ hedge)))
    have h2 := reachesIn_mono hlenpos h1
    rw [hnocyc] at h2
    cases h2
  · have hr1 : reachesIn (adj pkgs) seen.length c.name v.name = true :=
      chain_to_reachesIn seen c.name v.name hch hvseen
    have hr2 : reachesIn (adj pkgs) (seen.length + 1) v.name v.name = true := by
      rw [reachesIn]
      exact Bool.or_eq_true_iff.2 (Or.inr (List.any_eq_true.2 ⟨c.name, hedge, hr1⟩))
    have hlenle : seen.length + 1 ≤ pkgs.length := by
      have hle := (List.subperm_of_subset hndl hsubl).length_le
      rw [names, List.length_map] at hle
      simpa using hle
    have h2 := reachesIn_mono hlenle hr2
    rw [hnocyc] at h2
    cases h2

theorem exists_root_aux {pkgs : List Pkg} (hnd : (names pkgs).Nodup)
    (hacyc : hasCycle pkgs = false) :
    ∀ (k : Nat) (c : Pkg) (seen : List String) (target : String),
      c ∈ pkgs → (c.name :: seen).Nodup → (∀ v ∈ c.name :: seen, v ∈ names pkgs) →
      List.Chain' (fun a b => b ∈ adj pkgs a) (c.name :: seen) →
      Reach (adj pkgs) c.name target →
      (names pkgs).length ≤ k + (c.name :: seen).length →
      ∃ r ∈ pkgs, noIncoming pkgs r = true ∧ Reach (adj pkgs) r.name target := by
  intro k
  induction k with
  | zero =>
    intro c seen target hc hndl hsubl hch hreach hk
    by_cases hni : noIncoming pkgs c = true
    · exact ⟨c, hc, hni, hreach⟩
    · obtain ⟨v, hv, hdep⟩ := not_noIncoming_spec hni
      have hedge : c.name ∈ adj pkgs v.name := by
        rw [adj_eq hnd hv]
        exact List.mem_filter.2 ⟨hdep, registered_of_mem hc⟩
      by_cases hvin : v.name ∈ c.name :: seen
      · exact absurd (backchain_cycle_absurd hacyc hndl hsubl hch hv hedge hvin) id
      · exfalso
        have hndl2 : (v.name :: c.name :: seen).Nodup := List.nodup_cons.2 ⟨hvin, hndl⟩
        have hsubl2 : (v.name :: c.name :: seen) ⊆ names pkgs := by
          intro x hx
          rcases List.mem_cons.1 hx with rfl | hx'
          · exact List.mem_map_of_mem Pkg.name hv
          · exact hsubl x hx'
        have hle := (List.subperm_of_subset hndl2 hsubl2).length_le
        simp at hle hk
        omega
  | succ k ih =>
    intro c seen target hc hndl hsubl hch hreach hk
    by_cases hni : noIncoming pkgs c = true
    · exact ⟨c, hc, hni, hreach⟩
    · obtain ⟨v, hv, hdep⟩ := not_noIncoming_spec hni
      have hedge : c.name ∈ adj pkgs v.name := by
        rw [adj_eq hnd hv]
        exact List.mem_filter.2 ⟨hdep, registered_of_mem hc⟩
      by_cases hvin : v.name ∈ c.name :: seen
      · exact absurd (backchain_cycle_absurd hacyc hndl hsubl hch hv hedge hvin) id
      · refine ih v (c.name :: seen) target hv (List.nodup_cons.2 ⟨hvin, hndl⟩)
          ?_ ?_ (Reach.step hedge hreach) ?_
        · intro x hx
          rcases List.mem_cons.1 hx with rfl | hx'
          · exact List.mem_map_of_mem Pkg.name hv
          · exact hsubl x hx'
        · exact List.chain'_cons.2 ⟨hedge, hch⟩
        · simp at hk ⊢
          omega

theorem exists_root {pkgs : List Pkg} (hnd : (names pkgs).Nodup)
    (hacyc : hasCycle pkgs = false) :
    ∀ p ∈ pkgs, ∃ r ∈ pkgs, noIncoming pkgs r = true ∧
      Reach (adj pkgs) r.name p.name := by
  intro p hp
  refine exists_root_aux hnd hacyc (names pkgs).length p [] p.name hp (by simp) ?_
    (by simp) (Reach.refl p.name) (by simp)
  intro v hv
  have hv' : v = p.name := List.mem_singleton.1 hv
  rw [hv']
  exact List.mem_map_of_mem Pkg.name hp

theorem doSort_ok_spec {pkgs : List Pkg} {out : List String}
    (h : doSort pkgs = Except.ok out) :
    out.Nodup ∧ (∀ x ∈ out, x ∈ names pkgs) ∧ depsBefore (adj pkgs) out ∧
    (∀ p ∈ pkgs, noIncoming pkgs p = true →
      ∃ deps, topSort pkgs p.name = Except.ok deps ∧ deps ⊆ out) := by
  rw [doSort] at h
  obtain ⟨-, hndp, hsub, hdb, hroot⟩ := doSortAux_spec pkgs [] out (fun q hq => hq) h
  refine ⟨hndp List.nodup_nil, fun x hx => ?_, hdb (depsBefore_nil _), hroot⟩
  rcases hsub x hx with h | h
  · cases h
  · exact h

theorem doSort_complete {pkgs : List Pkg} (hnd : (names pkgs).Nodup)
    (hacyc : hasCycle pkgs = false) {out : List String}
    (h : doSort pkgs = Except.ok out) : ∀ x ∈ names pkgs, x ∈ out := by
  intro x hx
  obtain ⟨p, hp, rfl⟩ := List.mem_map.1 hx
  obtain ⟨r, hr, hrni, hreach⟩ := exists_root hnd hacyc p hp
  obtain ⟨-, -, -, hroot⟩ := doSort_ok_spec h
  obtain ⟨deps, ht, hdsub⟩ := hroot r hr hrni
  obtain ⟨-, -, -, hcomplete⟩ := topSort_ok_spec (List.mem_map_of_mem Pkg.name hr) ht
  exact hdsub (hcomplete p.name hreach)

theorem doSort_no_error {pkgs : List Pkg} (hnd : (names pkgs).Nodup)
    (hacyc : hasCycle pkgs = false) : ∃ out, doSort pkgs = Except.ok out :=
  doSortAux_no_error hnd hacyc pkgs [] (fun q hq => hq)

theorem filterMap_find?_map_name {pkgs : List Pkg} :
    ∀ {out : List String}, (∀ x ∈ out, x ∈ names pkgs) →
      (out.filterMap (fun n => pkgs.find? (fun p => p.name == n))).map Pkg.name = out := by
  intro out
  induction out with
  | nil => intro _; rfl
  | cons x xs ih =>
    intro hsub
    have hx : x ∈ names pkgs := hsub x (List.mem_cons_self x xs)
    have hsome : (pkgs.find? (fun p => p.name == x)).isSome := by
      rw [List.find?_isSome]
      obtain ⟨p, hp, hpx⟩ := List.mem_map.1 hx
      exact ⟨p, hp, by simp [hpx]⟩
    obtain ⟨q, hq⟩ := Option.isSome_iff_exists.1 hsome
    have hqx : q.name = x := by simpa using List.find?_some hq
    rw [List.filterMap_cons, hq, List.map_cons, hqx,
      ih (fun y hy => hsub y (List.mem_cons_of_mem x hy))]

theorem mem_pkgs_of_mem_filterMap {pkgs : List Pkg} {out : List String} {p : Pkg}
    (hp : p ∈ out.filterMap (fun n => pkgs.find? (fun q => q.name == n))) : p ∈ pkgs := by
  obtain ⟨n, -, hfind⟩ := List.mem_filterMap.1 hp
  exact List.mem_of_find?_eq_some hfind

theorem name_inj {pkgs : List Pkg} (hnd : (names pkgs).Nodup) {p q : Pkg}
    (hp : p ∈ pkgs) (hq : q ∈ pkgs) (h : p.name = q.name) : p = q :=
  List.inj_on_of_nodup_map hnd hp hq h

/-- The full correctness of `sortByDependency` on acyclic inputs: it
succeeds, the result lists exactly the registered packages once each, and
every registered dependency of a package occurs strictly earlier than the
package. -/
theorem sortByDependency_ok_master {pkgs : List Pkg} (hnd : (names pkgs).Nodup)
    (hacyc : hasCycle pkgs = false) :
    ∃ l, sortByDependency pkgs = Except.ok l ∧
      (∀ p ∈ pkgs, l.count p = 1) ∧ (∀ p ∈ l, p ∈ pkgs) ∧ l.Nodup ∧
      (l.map Pkg.name).Perm (names pkgs) ∧
      (∀ l1 p l2, l = l1 ++ p :: l2 → ∀ d ∈ p.depends, d ∈ names pkgs →
        d ∈ l1.map Pkg.name) := by
  obtain ⟨out, hout⟩ := doSort_no_error hnd hacyc
  obtain ⟨hondp, hosub, hodb, -⟩ := doSort_ok_spec hout
  have hcompl := doSort_complete hnd hacyc hout
  have hperm : out.Perm (names pkgs) :=
    (List.subperm_of_subset hondp hosub).antisymm (List.subperm_of_subset hnd hcompl)
  have hlenp : out.length = pkgs.length := by
    rw [hperm.length_eq, names, List.length_map]
  have hsbd : sortByDependency pkgs =
      Except.ok (out.filterMap (fun n => pkgs.find? (fun p => p.name == n))) := by
    rw [sortByDependency, hout]
    show (if out.length ≠ pkgs.length then Except.error (loopMsg pkgs)
      else Except.ok (out.filterMap (fun n => pkgs.find? (fun p => p.name == n)))) = _
    rw [if_neg (by omega)]
  have hmap : (out.filterMap (fun n => pkgs.find? (fun p => p.name == n))).map Pkg.name
      = out := filterMap_find?_map_name hosub
  refine ⟨out.filterMap (fun n => pkgs.find? (fun p => p.name == n)), hsbd, ?_, ?_, ?_, ?_, ?_⟩
  · intro p hp
    have hpn : p.name ∈ out := hcompl p.name (List.mem_map_of_mem Pkg.name hp)
    rw [← hmap] at hpn
    obtain ⟨q, hql, hqn⟩ := List.mem_map.1 hpn
    have hqp : q = p := name_inj hnd (mem_pkgs_of_mem_filterMap hql) hp hqn
    have hmem : p ∈ out.filterMap (fun n => pkgs.find? (fun p => p.name == n)) :=
      hqp ▸ hql
    have hndl : (out.filterMap (fun n => pkgs.find? (fun p => p.name == n))).Nodup :=
      List.Nodup.of_map Pkg.name (hmap.symm ▸ hondp)
    have h1 : List.count p (out.filterMap (fun n => pkgs.find? (fun p => p.name == n))) ≤ 1 :=
      List.nodup_iff_count_le_one.1 hndl p
    have h2 : 0 < List.count p (out.filterMap (fun n => pkgs.find? (fun p => p.name == n))) :=
      List.count_pos_iff_mem.2 hmem
    omega
  · exact fun p hp => mem_pkgs_of_mem_filterMap hp
  · exact List.Nodup.of_map Pkg.name (hmap.symm ▸ hondp)
  · rw [hmap]; exact hperm
  · intro l1 p l2 heq d hd hdN
    have hout_split : out = l1.map Pkg.name ++ p.name :: l2.map Pkg.name := by
      rw [← hmap, heq]
      simp
    have hppkgs : p ∈ pkgs := mem_pkgs_of_mem_filterMap (heq ▸ List.mem_append_right l1
      (List.mem_cons_self p l2))
    have hdadj : d ∈ adj pkgs p.name := by
      rw [adj_eq hnd hppkgs]
      refine List.mem_filter.2 ⟨hd, ?_⟩
      simpa [registered] using hdN
    exact hodb (l1.map Pkg.name) p.name (l2.map Pkg.name) hout_split d hdadj

/-! ## Claim C1: the resolver is a correct topological sort -/

/-- C1: for every registered set whose dependency graph is acyclic (and
whose names are unique, as `Register` enforces), `sortByDependency` returns
a sequence containing every registered package exactly once, in which every
`depends` entry that names a registered package appears strictly earlier
than the package that declares it. -/
theorem sortByDependency_dag_correct (pkgs : List Pkg)
    (hnd : (names pkgs).Nodup) (hacyc : hasCycle pkgs = false) :
    ∃ l, sortByDependency pkgs = Except.ok l ∧
      (∀ p ∈ pkgs, l.count p = 1) ∧ (∀ p ∈ l, p ∈ pkgs) ∧
      (l.map Pkg.name).Perm (names pkgs) ∧
      (∀ l1 p l2, l = l1 ++ p :: l2 → ∀ d ∈ p.depends, d ∈ names pkgs →
        d ∈ l1.map Pkg.name) := by
  obtain ⟨l, h1, h2, h3, -, h5, h6⟩ := sortByDependency_ok_master hnd hacyc
  exact ⟨l, h1, h2, h3, h5, h6⟩

/-- Witness for C1 on the `Case 2` scenario of the test suite. -/
theorem sortByDependency_dag_correct_witness :
    (names pkgsC1).Nodup ∧ hasCycle pkgsC1 = false ∧
    (∃ l, sortByDependency pkgsC1 = Except.ok l ∧
      (∀ p ∈ pkgsC1, l.count p = 1) ∧ (∀ p ∈ l, p ∈ pkgsC1) ∧
      (l.map Pkg.name).Perm (names pkgsC1) ∧
      (∀ l1 p l2, l = l1 ++ p :: l2 → ∀ d ∈ p.depends, d ∈ names pkgsC1 →
        d ∈ l1.map Pkg.name)) :=
  ⟨by decide, by decide, sortByDependency_dag_correct pkgsC1 (by decide) (by decide)⟩

/-! ## Success of the resolver implies acyclicity -/

theorem idx_lt_of_split {a : String} :
    ∀ {l1 l2 : List String} {b : String}, (l1 ++ a :: l2).Nodup → b ∈ l1 →
      (l1 ++ a :: l2).indexOf b < (l1 ++ a :: l2).indexOf a := by
  intro l1
  induction l1 with
  | nil => intro l2 b _ hb; cases hb
  | cons h l1' ih =>
    intro l2 b hnd hb
    rw [List.cons_append] at hnd ⊢
    have hhead : h ∉ l1' ++ a :: l2 := (List.nodup_cons.1 hnd).1
    have hha : h ≠ a := fun hha => by
      rw [hha] at hhead
      exact hhead (List.mem_append_right l1' (List.mem_cons_self a l2))
    rcases List.mem_cons.1 hb with rfl | hb'
    · rw [List.indexOf_cons_self, List.indexOf_cons_ne _ hha]
      exact Nat.succ_pos _
    · have hhb : h ≠ b := fun hhb => by
        rw [hhb] at hhead
        exact hhead (List.mem_append_left _ hb')
      rw [List.indexOf_cons_ne _ hhb, List.indexOf_cons_ne _ hha]
      exact Nat.succ_lt_succ (ih (List.nodup_cons.1 hnd).2 hb')

theorem depsBefore_no_cycle {adjF : String → List String} {l : List String}
    (hdb : depsBefore adjF l) (hnd : l.Nodup) :
    ∀ k a b, a ∈ l → reachesIn adjF k a b = true →
      b ∈ l ∧ l.indexOf b < l.indexOf a := by
  intro k
  induction k with
  | zero => intro a b _ h; simp [reachesIn] at h
  | succ k ih =>
    intro a b ha h
    rw [reachesIn] at h
    obtain ⟨l1, l2, hsplit⟩ := List.append_of_mem ha
    rcases Bool.or_eq_true_iff.1 h with h1 | h1
    · have hb : b ∈ adjF a := by simpa using h1
      have hbl1 : b ∈ l1 := hdb l1 a l2 hsplit b hb
      subst hsplit
      exact ⟨List.mem_append_left _ hbl1, idx_lt_of_split hnd hbl1⟩
    · obtain ⟨c, hc, hr⟩ := List.any_eq_true.1 h1
      have hcl1 : c ∈ l1 := hdb l1 a l2 hsplit c hc
      subst hsplit
      obtain ⟨hbl, hblt⟩ := ih c b (List.mem_append_left _ hcl1) hr
      exact ⟨hbl, lt_trans hblt (idx_lt_of_split hnd hcl1)⟩

theorem sortByDependency_ok_inv {pkgs : List Pkg} {l : List Pkg}
    (h : sortByDependency pkgs = Except.ok l) :
    ∃ out, doSort pkgs = Except.ok out ∧ out.length = pkgs.length := by
  rw [sortByDependency] at h
  cases hds : doSort pkgs with
  | error e => rw [hds] at h; cases h
  | ok out =>
    rw [hds] at h
    by_cases hlen : out.length ≠ pkgs.length
    · exfalso
      have h' : (if out.length ≠ pkgs.length then Except.error (loopMsg pkgs)
          else Except.ok (out.filterMap (fun n => pkgs.find? (fun p => p.name == n))))
          = Except.ok l := h
      rw [if_pos hlen] at h'
      cases h'
    · exact ⟨out, rfl, by omega⟩

theorem sortOk_not_cyclic {pkgs : List Pkg} (hnd : (names pkgs).Nodup) {l : List Pkg}
    (h : sortByDependency pkgs = Except.ok l) : hasCycle pkgs = false := by
  cases hcyc : hasCycle pkgs
  · rfl
  · exfalso
    rw [hasCycle] at hcyc
    obtain ⟨n, hn, hr⟩ := List.any_eq_true.1 hcyc
    obtain ⟨out, hds, hlen⟩ := sortByDependency_ok_inv h
    obtain ⟨hondp, hosub, hodb, -⟩ := doSort_ok_spec hds
    have hperm : out.Perm (names pkgs) := by
      refine (List.subperm_of_subset hondp hosub).perm_of_length_le ?_
      rw [hlen, names, List.length_map]
    have hnout : n ∈ out := hperm.mem_iff.2 hn
    obtain ⟨-, hidx⟩ := depsBefore_no_cycle hodb hondp pkgs.length n n hnout hr
    exact lt_irrefl _ hidx

theorem startNames_runHookList (l : List Hook) : startNames (runHookList l).1 = [] := by
  induction l with
  | nil => rfl
  | cons h rest ih =>
    rw [runHookList]
    cases hb : h.panicsB
    · simp only [Bool.false_eq_true, if_false]
      cases hrec : runHookList rest with
      | mk tr c =>
        rw [hrec] at ih
        simpa [startNames] using ih
    · simp [startNames]

theorem startNames_callHooks (hooks : List Hook) (t : hookType) :
    startNames (callHooks hooks t).1 = [] :=
  startNames_runHookList (hooksFor hooks t)

theorem startNames_startRecovery_zero (s : LifeState) (m : String) :
    startNames (startRecovery s 0 m).1 = [] := by
  rw [startRecovery, List.take_zero]
  cases hcall : callHooks s.hooks hookType.OnAbort with
  | mk trA c =>
    have hA : startNames trA = [] := by
      have htr : trA = (callHooks s.hooks hookType.OnAbort).1 := by rw [hcall]
      rw [htr]
      exact startNames_callHooks s.hooks _
    cases c
    · simp [doShutdownPackages, runStopLoop, hcall, startNames_append, hA, startNames]
      exact List.filterMap_eq_nil.1 hA
    · simp [doShutdownPackages, runStopLoop, hcall, startNames_append, hA, startNames]
      exact List.filterMap_eq_nil.1 hA

/-! ## Claim C6: cycle detection and its diagnostics -/

/-- C6 counterexample: with the cycle `b → c → b` reachable from the entry
point `a`, the resolver fails inside the traversal with the cycle-path
diagnostic, not with the diagnostic that lists, for every component with a
non-empty `depends` list, its name and dependencies (`loopMsg` — note it
would mention `a`, which the produced message does not). -/
theorem cycle_diagnostic_cex :
    hasCycle pkgsC6 = true ∧
    sortByDependency pkgsC6 = Except.error "[life] Cycle error: b -> c -> b" ∧
    "[life] Cycle error: b -> c -> b" ≠ loopMsg pkgsC6 :=
  ⟨by decide, by rfl, by decide⟩

/-- C6 amended: a dependency cycle always makes `Start` fail before any
component's start callback runs. The diagnostic listing every component
with a non-empty `depends` list is produced exactly when the traversal
succeeds but the produced sequence misses packages (every cycle unreachable
from the entry points); a cycle reachable from an entry point instead fails
inside the traversal with its cycle-path diagnostic. -/
theorem cycle_start_fails (pkgs : List Pkg) (hnd : (names pkgs).Nodup)
    (hcyc : hasCycle pkgs = true) :
    (∃ e, sortByDependency pkgs = Except.error e) ∧
    (∀ out, doSort pkgs = Except.ok out →
      sortByDependency pkgs = Except.error (loopMsg pkgs)) ∧
    (∀ s : LifeState, s.pkgs = pkgs → s.phase = StateT.Initing → hooksSafe s.hooks →
      startNames (Start s).1 = [] ∧ ∃ e, (Start s).2.2 = Outcome.panicked e) := by
  have h1 : ∃ e, sortByDependency pkgs = Except.error e := by
    cases hs : sortByDependency pkgs with
    | error e => exact ⟨e, rfl⟩
    | ok l =>
      rw [sortOk_not_cyclic hnd hs] at hcyc
      cases hcyc
  refine ⟨h1, fun out hds => ?_, fun s hpk hph hs => ?_⟩
  · by_cases hlen : out.length ≠ pkgs.length
    · rw [sortByDependency, hds]
      show (if out.length ≠ pkgs.length then Except.error (loopMsg pkgs)
        else Except.ok (out.filterMap (fun n => pkgs.find? (fun p => p.name == n)))) = _
      rw [if_pos hlen]
    · exfalso
      have hok : sortByDependency pkgs =
          Except.ok (out.filterMap (fun n => pkgs.find? (fun p => p.name == n))) := by
        rw [sortByDependency, hds]
        show (if out.length ≠ pkgs.length then Except.error (loopMsg pkgs)
          else Except.ok (out.filterMap (fun n => pkgs.find? (fun p => p.name == n)))) = _
        rw [if_neg hlen]
      rw [sortOk_not_cyclic hnd hok] at hcyc
      cases hcyc
  · obtain ⟨e, he⟩ := h1
    have he' : sortByDependency s.pkgs = Except.error e := by rw [hpk]; exact he
    have hStart : Start s = (hooksTr s.hooks hookType.BeforeStarting
        ++ ([Ev.errHandled] ++ hooksTr s.hooks hookType.OnAbort ++ [Ev.exitCall 10]),
        { s with phase := StateT.Starting }, Outcome.panicked e) := by
      simp [Start, hph, callHooks_safe _ _ hs, he', startRecovery,
        doShutdownPackages, runStopLoop]
    constructor
    · rw [hStart]
      show startNames (hooksTr s.hooks hookType.BeforeStarting
        ++ ([Ev.errHandled] ++ hooksTr s.hooks hookType.OnAbort ++ [Ev.exitCall 10])) = []
      rw [startNames_append, startNames_append, startNames_append, startNames_hooksTr,
        startNames_hooksTr]
      rfl
    · exact ⟨e, by rw [hStart]⟩

/-- Witness for the amended C6 on the reachable cycle `a → b → c → b`. -/
theorem cycle_start_fails_witness :
    (∃ e, sortByDependency pkgsC6 = Except.error e) ∧
    startNames (Start stC6).1 = [] ∧ ∃ e, (Start stC6).2.2 = Outcome.panicked e := by
  have h := cycle_start_fails pkgsC6 (by decide) (by decide)
  exact ⟨h.1, (h.2.2 stC6 rfl rfl (by decide)).1, (h.2.2 stC6 rfl rfl (by decide)).2⟩

/-! ## Claim C7: dependencies on unregistered names -/

theorem names_scrub (pkgs : List Pkg) : names (scrub pkgs) = names pkgs := by
  rw [names, scrub, List.map_map]
  rfl

theorem registered_scrub (pkgs : List Pkg) (n : String) :
    registered (scrub pkgs) n = registered pkgs n := by
  rw [registered, registered, names_scrub]

theorem find?_scrub (pkgs0 : List Pkg) (n : String) :
    ∀ (l : List Pkg), (l.map (scrubOne pkgs0)).find? (fun p => p.name == n) =
      (l.find? (fun p => p.name == n)).map (scrubOne pkgs0) := by
  intro l
  induction l with
  | nil => rfl
  | cons q l ih =>
    rw [List.map_cons]
    cases hq : (q.name == n) with
    | true =>
      have hq1 : ((scrubOne pkgs0 q).name == n) = true := hq
      rw [@List.find?_cons_of_pos _ (fun p => p.name == n) (scrubOne pkgs0 q)
          (l.map (scrubOne pkgs0)) hq1,
        @List.find?_cons_of_pos _ (fun p => p.name == n) q l hq]
      rfl
    | false =>
      have hq0 : ¬ (q.name == n) = true := by simp [hq]
      have hq1 : ¬ ((scrubOne pkgs0 q).name == n) = true := hq0
      rw [@List.find?_cons_of_neg _ (fun p => p.name == n) (scrubOne pkgs0 q)
          (l.map (scrubOne pkgs0)) hq1,
        @List.find?_cons_of_neg _ (fun p => p.name == n) q l hq0]
      exact ih

theorem adj_scrub (pkgs : List Pkg) (n : String) :
    adj (scrub pkgs) n = adj pkgs n := by
  rw [adj, adj]
  rw [show scrub pkgs = pkgs.map (scrubOne pkgs) from rfl]
  rw [find?_scrub pkgs n pkgs]
  cases hf : pkgs.find? (fun p => p.name == n) with
  | none => rfl
  | some p =>
    show ((scrubOne pkgs p).depends.filter
        (fun d => registered (pkgs.map (scrubOne pkgs)) d)) =
      p.depends.filter (fun d => registered pkgs d)
    rw [scrubOne]
    show ((p.depends.filter (fun d => registered pkgs d)).filter
      (fun d => registered (pkgs.map (scrubOne pkgs)) d)) =
      p.depends.filter (fun d => registered pkgs d)
    rw [List.filter_filter]
    apply List.filter_congr
    intro d _
    have hreg : registered (pkgs.map (scrubOne pkgs)) d = registered pkgs d :=
      registered_scrub pkgs d
    rw [hreg]
    cases registered pkgs d <;> rfl

theorem scrub_length (pkgs : List Pkg) : (scrub pkgs).length = pkgs.length := by
  rw [scrub]
  exact List.length_map _ _

theorem hasCycle_scrub (pkgs : List Pkg) : hasCycle (scrub pkgs) = hasCycle pkgs := by
  have hadj : adj (scrub pkgs) = adj pkgs := funext (adj_scrub pkgs)
  rw [hasCycle, hasCycle, names_scrub, hadj, scrub_length]

theorem foldr_max_le_foldr_max {f g : Pkg → Nat} (h : ∀ q, g q ≤ f q) :
    ∀ l : List Pkg, (l.map g).foldr Nat.max 0 ≤ (l.map f).foldr Nat.max 0 := by
  intro l
  induction l with
  | nil => simp
  | cons p rest ih =>
    rw [List.map_cons, List.map_cons, List.foldr_cons, List.foldr_cons]
    exact max_le_max (h p) ih

theorem maxDepends_scrub_le (pkgs : List Pkg) :
    maxDepends (scrub pkgs) ≤ maxDepends pkgs := by
  rw [maxDepends, maxDepends, scrub, List.map_map]
  exact foldr_max_le_foldr_max (fun q => List.length_filter_le _ _) pkgs

theorem topSortFuel_scrub_le (pkgs : List Pkg) :
    topSortFuel (scrub pkgs) ≤ topSortFuel pkgs := by
  rw [topSortFuel, topSortFuel, scrub_length]
  have h := maxDepends_scrub_le pkgs
  exact Nat.mul_le_mul_left _ (by omega)

theorem list_all_congr {α : Type} (l : List α) {f g : α → Bool}
    (h : ∀ x ∈ l, f x = g x) : l.all f = l.all g := by
  induction l with
  | nil => rfl
  | cons a l ih =>
    rw [List.all_cons, List.all_cons, h a (List.mem_cons_self a l),
      ih (fun x hx => h x (List.mem_cons_of_mem a hx))]

theorem topSort_scrub_to_pkgs {pkgs : List Pkg} {n : String} {deps : List String}
    (h : topSort (scrub pkgs) n = Except.ok deps) : topSort pkgs n = Except.ok deps := by
  rw [topSort] at h ⊢
  have hadj : adj (scrub pkgs) = adj pkgs := funext (adj_scrub pkgs)
  rw [hadj] at h
  cases hv : visit (adj pkgs) (topSortFuel (scrub pkgs)) n [] [] with
  | error e => rw [hv] at h; cases h
  | ok r =>
    rw [hv] at h
    have hv' : visit (adj pkgs) (topSortFuel pkgs) n [] [] = Except.ok r :=
      (visit_mono (adj pkgs) (topSortFuel (scrub pkgs))).1 (topSortFuel pkgs) n [] [] r
        (topSortFuel_scrub_le pkgs) hv
    rw [hv']
    exact h

theorem noIncoming_scrub {pkgs : List Pkg} {p : Pkg} (hp : p ∈ pkgs) :
    noIncoming (scrub pkgs) (scrubOne pkgs p) = noIncoming pkgs p := by
  rw [noIncoming, noIncoming, scrub, List.all_map]
  apply list_all_congr
  intro v _
  show (!((scrubOne pkgs v).depends.contains (scrubOne pkgs p).name)) =
    (!(v.depends.contains p.name))
  rw [scrubOne, scrubOne]
  show (!((v.depends.filter (fun d => registered pkgs d)).contains p.name)) =
    (!(v.depends.contains p.name))
  have hreg : registered pkgs p.name = true := registered_of_mem hp
  by_cases hmem : p.name ∈ v.depends
  · rw [contains_true_of_mem hmem,
      contains_true_of_mem (List.mem_filter.2 ⟨hmem, hreg⟩)]
  · rw [contains_false_of_not_mem hmem,
      contains_false_of_not_mem (fun hc => hmem (List.mem_of_mem_filter hc))]

theorem doSortAux_scrub_to_pkgs {pkgs : List Pkg} :
    ∀ (rem : List Pkg) (acc out : List String), (∀ q ∈ rem, q ∈ pkgs) →
      doSortAux (scrub pkgs) (rem.map (scrubOne pkgs)) acc = Except.ok out →
      doSortAux pkgs rem acc = Except.ok out := by
  intro rem
  induction rem with
  | nil => intro acc out _ h; simpa [doSortAux] using h
  | cons p rest ih =>
    intro acc out hrem h
    rw [List.map_cons, doSortAux] at h
    rw [doSortAux]
    rw [noIncoming_scrub (hrem p (List.mem_cons_self p rest))] at h
    by_cases hni : noIncoming pkgs p = true
    · rw [if_pos hni] at h ⊢
      have hname : (scrubOne pkgs p).name = p.name := rfl
      rw [hname] at h
      cases ht : topSort (scrub pkgs) p.name with
      | error e => rw [ht] at h; cases h
      | ok deps =>
        rw [ht] at h
        rw [topSort_scrub_to_pkgs ht]
        exact ih (mergeDedup acc deps) out (fun q hq => hrem q (List.mem_cons_of_mem p hq)) h
    · rw [if_neg hni] at h ⊢
      exact ih acc out (fun q hq => hrem q (List.mem_cons_of_mem p hq)) h

/-- C7: a `depends` entry naming an unregistered package is not an error:
the produced order is identical to the one produced when those entries are
removed (they contribute no ordering constraint), the resolver still
succeeds when the remaining graph is acyclic, `Start` completes normally
when all callbacks are well-behaved, and the missing entry only yields the
warning line the graph construction logs. -/
theorem missing_dependency_harmless (pkgs : List Pkg)
    (hnd : (names pkgs).Nodup) (hacyc : hasCycle pkgs = false) :
    (∃ out, doSort pkgs = Except.ok out ∧ doSort (scrub pkgs) = Except.ok out) ∧
    (∃ l, sortByDependency pkgs = Except.ok l) ∧
    (∀ s : LifeState, s.pkgs = pkgs → s.phase = StateT.Initing → hooksSafe s.hooks →
      (∀ p ∈ pkgs, startSafe p = true) → (Start s).2.2 = Outcome.normal) ∧
    (∀ p ∈ pkgs, ∀ d ∈ p.depends, registered pkgs d = false →
      warnMsg p.name d ∈ depWarnings pkgs) := by
  have hndS : (names (scrub pkgs)).Nodup := by rw [names_scrub]; exact hnd
  have hacycS : hasCycle (scrub pkgs) = false := by rw [hasCycle_scrub]; exact hacyc
  obtain ⟨out, houtS⟩ := doSort_no_error hndS hacycS
  have hout : doSort pkgs = Except.ok out := by
    rw [doSort] at houtS ⊢
    exact doSortAux_scrub_to_pkgs pkgs [] out (fun q hq => hq) houtS
  obtain ⟨l, hok, -, hmeml, -, -⟩ := sortByDependency_ok_master hnd hacyc
  refine ⟨⟨out, hout, houtS⟩, ⟨l, hok⟩, fun s hpk hph hs hsafe => ?_, fun p hp d hd hreg => ?_⟩
  · have hok' : sortByDependency s.pkgs = Except.ok l := by rw [hpk]; exact hok
    have hsafel : ∀ p ∈ l, startSafe p = true := fun p hpl => by
      apply hsafe p
      rw [← hpk]
      rw [hpk]
      exact hmeml p hpl
    simp [Start, hph, callHooks_safe _ _ hs, hok', runStartLoop_safe l hsafel]
  · rw [depWarnings]
    rw [List.mem_flatMap]
    refine ⟨p, hp, ?_⟩
    apply List.mem_map_of_mem
    exact List.mem_filter.2 ⟨hd, by rw [hreg]; rfl⟩

/-- Witness for C7: `a` depends on the unregistered name `zzz`. -/
theorem missing_dependency_harmless_witness :
    registered pkgsC7 "zzz" = false ∧
    (∃ l, sortByDependency pkgsC7 = Except.ok l) ∧
    warnMsg "a" "zzz" ∈ depWarnings pkgsC7 := by
  have h := missing_dependency_harmless pkgsC7 (by decide) (by decide)
  refine ⟨by decide, h.2.1, ?_⟩
  have hw := h.2.2.2 ⟨"a", CbBeh.ok, CbBeh.ok, ["zzz"]⟩ (by decide) "zzz" (by decide) (by decide)
  exact hw

/-! ## Claim C8: hooks fire in ascending order -/

/-- C8: for every event, the hooks executed by `callHooks` are a permutation
of the hooks registered for that event, arranged in non-decreasing numeric
`order` — so a hook with strictly smaller order always runs before one with
strictly larger order, regardless of registration order, while equal orders
may run either way (the sort promises nothing about ties); when no hook
panics, the emitted trace is exactly that sorted sequence. -/
theorem callHooks_runs_in_order (hooks : List Hook) (t : hookType) :
    (hooksFor hooks t).Perm (hooks.filter (fun h => h.typ == t)) ∧
    List.Sorted hookLe (hooksFor hooks t) ∧
    (∀ l1 a l2, hooksFor hooks t = l1 ++ a :: l2 → ∀ b ∈ l2, a.order ≤ b.order) ∧
    (hooksSafe hooks → (callHooks hooks t).1 = hooksTr hooks t) := by
  refine ⟨List.perm_insertionSort hookLe _, List.sorted_insertionSort hookLe _,
    ?_, fun hs => by rw [callHooks_safe hooks t hs]⟩
  intro l1 a l2 heq b hb
  have hp : List.Pairwise hookLe (l1 ++ a :: l2) := heq ▸ List.sorted_insertionSort hookLe _
  exact (List.pairwise_cons.1 (List.pairwise_append.1 hp).2.1).1 b hb

/-- Witness for C8: on the concrete scenario they run as bar, foo, foobar. -/
theorem callHooks_runs_in_order_witness :
    hooksSafe hooksC8 ∧
    (callHooks hooksC8 hookType.BeforeStarting).1 = hooksTr hooksC8 hookType.BeforeStarting ∧
    hooksTr hooksC8 hookType.BeforeStarting =
      [Ev.hookRun hookType.BeforeStarting "bar", Ev.hookRun hookType.BeforeStarting "foo",
       Ev.hookRun hookType.BeforeStarting "foobar"] :=
  ⟨by decide, (callHooks_runs_in_order hooksC8 hookType.BeforeStarting).2.2.2 (by decide),
   by decide⟩

/-! ## Claim C10: `Start` outside `Initing` -/

/-- C10: calling `Start` when the phase is not `Initing` does not merely
raise a usage error — the deferred recovery handler is installed before the
phase check, so the abort sequence runs: no stop callbacks (nothing
started), `errors.Handle`, the `OnAbort` hooks, an exit-code-10 termination
request, and the original panic re-raised to the caller, leaving the state
unchanged. -/
theorem start_wrong_phase_aborts (s : LifeState) (hph : s.phase ≠ StateT.Initing)
    (hs : hooksSafe s.hooks) :
    Start s = ([Ev.errHandled] ++ hooksTr s.hooks hookType.OnAbort ++ [Ev.exitCall 10],
               s, Outcome.panicked (startErrMsg s.phase)) ∧
    stopNames (Start s).1 = [] ∧ startNames (Start s).1 = [] := by
  have h1 : Start s = ([Ev.errHandled] ++ hooksTr s.hooks hookType.OnAbort ++ [Ev.exitCall 10],
      s, Outcome.panicked (startErrMsg s.phase)) := by
    simp [Start, hph, startRecovery, doShutdownPackages, runStopLoop,
      callHooks_safe _ _ hs]
  refine ⟨h1, ?_, ?_⟩
  · rw [h1]
    show stopNames ([Ev.errHandled] ++ hooksTr s.hooks hookType.OnAbort ++ [Ev.exitCall 10]) = []
    rw [stopNames_append, stopNames_append, stopNames_hooksTr]
    rfl
  · rw [h1]
    show startNames ([Ev.errHandled] ++ hooksTr s.hooks hookType.OnAbort ++ [Ev.exitCall 10]) = []
    rw [startNames_append, startNames_append, startNames_hooksTr]
    rfl

/-- Witness for C10. -/
theorem start_wrong_phase_aborts_witness :
    Start exC10 = ([Ev.errHandled] ++ hooksTr exC10.hooks hookType.OnAbort ++ [Ev.exitCall 10],
      exC10, Outcome.panicked (startErrMsg exC10.phase)) :=
  (start_wrong_phase_aborts exC10 (by decide) (by decide)).1

/-! ## Claim C3: panics during the shutdown sequence -/

/-- C3 counterexample: a panic raised by a `BeforeShutingdown` hook happens
on the hook-runner goroutine, so it terminates the process directly instead
of being recovered by `Shutdown`'s deferred handler: the `OnAbort` hooks do
not run, no exit-code-11 termination is requested, nothing is re-raised to
`Shutdown`'s caller (the outcome is a crash, not a panic), and the phase is
left at `Shutingdown`, not `Halt`. -/
theorem shutdown_hook_panic_cex :
    Shutdown exC3 = ([Ev.hookRun hookType.BeforeShutingdown "h"],
      { exC3 with phase := StateT.Shutingdown }, Outcome.crashed) ∧
    Ev.hookRun hookType.OnAbort "a" ∉ (Shutdown exC3).1 ∧
    Ev.exitCall 11 ∉ (Shutdown exC3).1 ∧
    (Shutdown exC3).2.1.phase ≠ StateT.Halt ∧
    (∀ m, (Shutdown exC3).2.2 ≠ Outcome.panicked m) := by
  refine ⟨by decide, by decide, by decide, by decide, fun m => ?_⟩
  intro h
  simp [Shutdown, exC3, callHooks, hooksFor, runHookList, List.insertionSort,
    List.orderedInsert] at h

/-- C3 amended: if a component's stop callback panics during `Shutdown`,
the deferred handler recovers it and runs the abort sequence — `OnAbort`
hooks, an exit-code-11 termination request, the original error re-raised —
and the phase is nevertheless set to `Halt`. -/
theorem shutdown_stop_panic_abort (s : LifeState) (trS : List Ev) (m : String)
    (hph : s.phase = StateT.Running) (hs : hooksSafe s.hooks)
    (hstop : doShutdownPackages s.pkgs = (trS, some m)) :
    Shutdown s = (hooksTr s.hooks hookType.BeforeShutingdown ++ trS ++ [Ev.errHandled]
        ++ hooksTr s.hooks hookType.OnAbort ++ [Ev.exitCall 11],
      { s with phase := StateT.Halt }, Outcome.panicked m) := by
  simp [Shutdown, hph, callHooks_safe _ _ hs, hstop]

/-- Witness for the amended C3. -/
theorem shutdown_stop_panic_abort_witness :
    Shutdown exC3b = (hooksTr exC3b.hooks hookType.BeforeShutingdown ++ [Ev.stopCb "p"]
        ++ [Ev.errHandled] ++ hooksTr exC3b.hooks hookType.OnAbort ++ [Ev.exitCall 11],
      { exC3b with phase := StateT.Halt }, Outcome.panicked "error") :=
  shutdown_stop_panic_abort exC3b [Ev.stopCb "p"] "error" rfl (by decide) (by decide)

/-! ## Claim C4: `WaitToEnd` release behaviour -/

/-- C4 counterexample: a `WaitToEnd` caller blocked before a failing
`Shutdown` is never released. The failed `Shutdown` does reach `Halt`, but
it panics before `close(shutdown)`, so the channel such a caller is blocked
on is never closed — neither by the failing call nor by any later
`Shutdown` call (which returns early once the phase is `Halt`). -/
theorem failed_shutdown_blocked_waiter_cex :
    WaitToEnd exC4 = WaitB.blockOnChannel ∧
    (Shutdown exC4).2.2 = Outcome.panicked "boom" ∧
    (Shutdown exC4).2.1.phase = StateT.Halt ∧
    ¬ blockedReleased (Shutdown exC4).2.1 ∧
    ¬ blockedReleased (Shutdown (Shutdown exC4).2.1).2.1 := by
  decide

/-- C4 amended: `WaitToEnd` returns immediately when the phase is already
`Halt`. A caller blocked on the shutdown channel is released exactly when
the channel is closed, which a successful `Shutdown` from `Running` does
(all blocked callers observe the single closed channel together, and later
callers return immediately). A failed `Shutdown` still reaches `Halt` — so
callers arriving afterwards return immediately — but it never closes the
channel, so already-blocked callers are not released, and no later
`Shutdown` call closes it either. -/
theorem waitToEnd_release (s : LifeState) :
    (s.phase = StateT.Halt → WaitToEnd s = WaitB.immediate) ∧
    (s.phase = StateT.Running → hooksSafe s.hooks → (∀ p ∈ s.pkgs, stopSafe p = true) →
      (Shutdown s).2.2 = Outcome.normal ∧ (Shutdown s).2.1.phase = StateT.Halt ∧
      blockedReleased (Shutdown s).2.1 ∧ WaitToEnd (Shutdown s).2.1 = WaitB.immediate) ∧
    (∀ trS m, s.phase = StateT.Running → hooksSafe s.hooks → s.shutdownClosed = false →
      doShutdownPackages s.pkgs = (trS, some m) →
      (Shutdown s).2.2 = Outcome.panicked m ∧ (Shutdown s).2.1.phase = StateT.Halt ∧
      ¬ blockedReleased (Shutdown s).2.1 ∧ WaitToEnd (Shutdown s).2.1 = WaitB.immediate) ∧
    (s.phase = StateT.Halt → (Shutdown s).2.1.shutdownClosed = s.shutdownClosed) := by
  refine ⟨fun h => by simp [WaitToEnd, h], fun hph hs hstop => ?_, fun trS m hph hs hch hstop => ?_,
    fun h => by simp [Shutdown, h]⟩
  · simp [Shutdown, hph, callHooks_safe _ _ hs, doShutdownPackages_safe _ hstop,
      blockedReleased, WaitToEnd]
  · simp [Shutdown, hph, callHooks_safe _ _ hs, hstop, blockedReleased, WaitToEnd, hch]

theorem startNames_startEvs (l : List Pkg) :
    startNames (l.map (fun p => Ev.startCb p.name)) = l.map Pkg.name := by
  induction l with
  | nil => rfl
  | cons p l ih => simp [startNames] at ih ⊢; exact ih

theorem stopNames_stopEvs (l : List Pkg) :
    stopNames (l.map (fun p => Ev.stopCb p.name)) = l.map Pkg.name := by
  induction l with
  | nil => rfl
  | cons p l ih => simp [stopNames] at ih ⊢; exact ih

/-! ## Claim C2: a panicking start callback rolls back started packages -/

/-- C2: when the start callback of a package panics during `Start`, the
deferred handler first invokes the stop callbacks of exactly the packages
that had already completed their start callbacks (`pkgs[:startedPkgs]`), in
reverse start order, then hands the error to `errors.Handle`, runs the
`OnAbort` hooks, requests termination with exit code 10 and re-raises the
original panic to `Start`'s caller. -/
theorem start_panic_rollback (s : LifeState) (sorted done rest : List Pkg) (pbad : Pkg)
    (m : String)
    (hph : s.phase = StateT.Initing) (hs : hooksSafe s.hooks)
    (hsort : sortByDependency s.pkgs = Except.ok sorted)
    (hsplit : sorted = done ++ pbad :: rest)
    (hdone : ∀ p ∈ done, startSafe p = true)
    (hstops : ∀ p ∈ done, stopSafe p = true)
    (hbad : pbad.onStart = CbBeh.panics m) :
    Start s = (hooksTr s.hooks hookType.BeforeStarting
        ++ ((done.filter (fun p => p.onStart == CbBeh.ok)).map (fun p => Ev.startCb p.name)
            ++ [Ev.startCb pbad.name])
        ++ (((done.filter (fun p => p.onShutdown == CbBeh.ok)).map
              (fun p => Ev.stopCb p.name)).reverse
            ++ [Ev.errHandled] ++ hooksTr s.hooks hookType.OnAbort ++ [Ev.exitCall 10]),
      { s with phase := StateT.Starting, pkgs := sorted }, Outcome.panicked m) := by
  subst hsplit
  have htake : (done ++ pbad :: rest).take done.length = done := List.take_left done _
  simp [Start, hph, callHooks_safe _ _ hs, hsort,
    runStartLoop_split done rest pbad m hdone hbad,
    startRecovery, htake, doShutdownPackages_safe _ hstops]

/-- Witness for C2: `foo` is started, the second package panics, `foo` is
stopped again, then the abort hooks and `Exit 10` run. -/
theorem start_panic_rollback_witness :
    Start exC2 = (hooksTr exC2.hooks hookType.BeforeStarting
        ++ ([Ev.startCb "foo"] ++ [Ev.startCb "panic"])
        ++ ([Ev.stopCb "foo"]
            ++ [Ev.errHandled] ++ hooksTr exC2.hooks hookType.OnAbort ++ [Ev.exitCall 10]),
      { exC2 with phase := StateT.Starting, pkgs := exC2.pkgs }, Outcome.panicked "foo") := by
  have h := start_panic_rollback exC2 exC2.pkgs [⟨"foo", CbBeh.ok, CbBeh.ok, []⟩] []
    ⟨"panic", CbBeh.panics "foo", CbBeh.absent, []⟩ "foo" rfl (by decide) rfl rfl
    (by decide) (by decide) rfl
  simpa using h

/-! ## Claim C5: shutdown order is the reverse of start order -/

/-- C5: after a successful `Start`, `Shutdown` invokes the stop callbacks in
exactly the reverse of the dependency order in which `Start` invoked the
start callbacks; in particular, when every package has both callbacks, the
stop-invocation sequence is the reversal of the start-invocation
sequence. -/
theorem start_then_shutdown_reverse (s : LifeState) (sorted : List Pkg)
    (hph : s.phase = StateT.Initing) (hs : hooksSafe s.hooks)
    (hsort : sortByDependency s.pkgs = Except.ok sorted)
    (hstart : ∀ p ∈ sorted, startSafe p = true)
    (hstop : ∀ p ∈ sorted, stopSafe p = true) :
    (Start s).2.2 = Outcome.normal ∧
    (Shutdown (Start s).2.1).2.2 = Outcome.normal ∧
    startNames (Start s).1 = (sorted.filter (fun p => p.onStart == CbBeh.ok)).map Pkg.name ∧
    stopNames (Shutdown (Start s).2.1).1 =
      ((sorted.filter (fun p => p.onShutdown == CbBeh.ok)).map Pkg.name).reverse ∧
    ((∀ p ∈ sorted, p.onStart = CbBeh.ok ∧ p.onShutdown = CbBeh.ok) →
      stopNames (Shutdown (Start s).2.1).1 = (startNames (Start s).1).reverse) := by
  have hStart : Start s = (hooksTr s.hooks hookType.BeforeStarting
      ++ (sorted.filter (fun p => p.onStart == CbBeh.ok)).map (fun p => Ev.startCb p.name)
      ++ hooksTr s.hooks hookType.BeforeRunning,
      { s with phase := StateT.Running, pkgs := sorted }, Outcome.normal) := by
    simp [Start, hph, callHooks_safe _ _ hs, hsort, runStartLoop_safe _ hstart]
  have hShut : Shutdown (Start s).2.1 = (hooksTr s.hooks hookType.BeforeShutingdown
      ++ ((sorted.filter (fun p => p.onShutdown == CbBeh.ok)).map
            (fun p => Ev.stopCb p.name)).reverse,
      { s with phase := StateT.Halt, pkgs := sorted, shutdownClosed := true },
      Outcome.normal) := by
    rw [hStart]
    simp [Shutdown, callHooks_safe _ _ hs, doShutdownPackages_safe _ hstop]
  have hsn : startNames (Start s).1 =
      (sorted.filter (fun p => p.onStart == CbBeh.ok)).map Pkg.name := by
    rw [hStart]
    show startNames (hooksTr s.hooks hookType.BeforeStarting
      ++ (sorted.filter (fun p => p.onStart == CbBeh.ok)).map (fun p => Ev.startCb p.name)
      ++ hooksTr s.hooks hookType.BeforeRunning) = _
    rw [startNames_append, startNames_append, startNames_hooksTr, startNames_hooksTr,
      startNames_startEvs]
    simp
  have htn : stopNames (Shutdown (Start s).2.1).1 =
      ((sorted.filter (fun p => p.onShutdown == CbBeh.ok)).map Pkg.name).reverse := by
    rw [hShut]
    show stopNames (hooksTr s.hooks hookType.BeforeShutingdown
      ++ ((sorted.filter (fun p => p.onShutdown == CbBeh.ok)).map
            (fun p => Ev.stopCb p.name)).reverse) = _
    rw [stopNames_append, stopNames_hooksTr, ← List.map_reverse, stopNames_stopEvs]
    simp [List.map_reverse]
  refine ⟨by rw [hStart], by rw [hShut], hsn, htn, fun hall => ?_⟩
  rw [hsn, htn]
  have h1 : sorted.filter (fun p => p.onStart == CbBeh.ok) = sorted :=
    List.filter_eq_self.mpr (fun p hp => by rw [(hall p hp).1]; rfl)
  have h2 : sorted.filter (fun p => p.onShutdown == CbBeh.ok) = sorted :=
    List.filter_eq_self.mpr (fun p hp => by rw [(hall p hp).2]; rfl)
  rw [h1, h2]

/-- Witness for C5: starts run as pkg1, pkg2 and stops as pkg2, pkg1. -/
theorem start_then_shutdown_reverse_witness :
    (Start exC5).2.2 = Outcome.normal ∧
    stopNames (Shutdown (Start exC5).2.1).1 = (startNames (Start exC5).1).reverse ∧
    startNames (Start exC5).1 = ["pkg1", "pkg2"] := by
  have h := start_then_shutdown_reverse exC5
    [⟨"pkg1", CbBeh.ok, CbBeh.ok, []⟩, ⟨"pkg2", CbBeh.ok, CbBeh.ok, ["pkg1"]⟩]
    rfl (by decide) rfl (by decide) (by decide)
  exact ⟨h.1, h.2.2.2.2 (by decide), by rw [h.2.2.1]; decide⟩

/-- Witness for the amended C4: a successful shutdown releases blocked
callers; the failing one from `exC4` does not. -/
theorem waitToEnd_release_witness :
    ((Shutdown exC4b).2.2 = Outcome.normal ∧ (Shutdown exC4b).2.1.phase = StateT.Halt ∧
      blockedReleased (Shutdown exC4b).2.1 ∧ WaitToEnd (Shutdown exC4b).2.1 = WaitB.immediate) ∧
    ((Shutdown exC4).2.2 = Outcome.panicked "boom" ∧ (Shutdown exC4).2.1.phase = StateT.Halt ∧
      ¬ blockedReleased (Shutdown exC4).2.1 ∧ WaitToEnd (Shutdown exC4).2.1 = WaitB.immediate) :=
  ⟨(waitToEnd_release exC4b).2.1 rfl (by decide) (by decide),
   (waitToEnd_release exC4).2.2.1 [Ev.stopCb "p"] "boom" rfl (by decide) rfl (by decide)⟩

end Life
